import Mathlib

/-!
Verification development for the GTDB gene presence visualization core:
a shallow embedding of the layout and matrix-transformation engine
(`src/hooks/useGeneVisualization.ts` and `src/utils/data-processing.ts`)
together with proofs about its layout, run-encoding, matrix and parsing
behaviour.

Conventions of the embedding:
* JS `Map` objects are embedded as functions `String → Option β`;
  `Map.set` is pointwise functional update (last write wins), `Map.get`
  is application, `Map.has` is `Option.isSome`.
* `Uint8Array` matrices are embedded as functions `Nat → Nat` together
  with an explicit length field; a fresh array is the constant-0
  function, and all writes performed by the source are in bounds.
* JS numbers appearing as gene counts are embedded as `Int`
  (`useGeneVisualization.ts` only ever stores results of `+x || 0`,
  which are never `NaN`); in the legacy `DataProcessor` path, where
  `parseInt` can produce `NaN`, a stored number is embedded as
  `Option Int` with `none` playing the role of `NaN`.
* Pixel widths and offsets are embedded as `ℚ` (exact arithmetic in
  place of IEEE doubles; the spec states its width equalities "within
  floating-point tolerance", which the rational model makes exact).
-/

namespace GTDBViz

/-! ## JS string primitives

These are structurally recursive models of the JS string operations the
source uses (`split('\t')`, `trim()`, `endsWith`, `replace(/_count$/)`),
so that every embedded computation reduces on concrete input. -/

/-- Helper for `jsSplitTab`: `acc` holds the current field reversed. -/
def splitTabAux : List Char → List Char → List String
  | [], acc => [String.mk acc.reverse]
  | x :: xs, acc =>
    if x = '\t' then String.mk acc.reverse :: splitTabAux xs []
    else splitTabAux xs (x :: acc)

/-- JS `s.split('\t')`: the (always non-empty) list of tab-separated
fields. -/
def jsSplitTab (s : String) : List String :=
  splitTabAux s.data []

/-- JS `s.endsWith(t)`. -/
def strEndsWith (s t : String) : Bool :=
  t.data.isSuffixOf s.data

/-- JS `s.trim()` at the character-list level (the source only trims
ASCII whitespace in practice). -/
def trimData (cs : List Char) : List Char :=
  ((cs.dropWhile Char.isWhitespace).reverse.dropWhile Char.isWhitespace).reverse

/-! ## JS number parsing primitives -/

/-- Numeric value of a list of decimal digit characters. -/
def digitsVal (cs : List Char) : Nat :=
  cs.foldl (fun a c => a * 10 + (c.toNat - '0'.toNat)) 0

/-- Value of a non-empty all-digit character list, `none` otherwise. -/
def allDigitsVal (cs : List Char) : Option Nat :=
  if cs ≠ [] ∧ cs.all (·.isDigit) then some (digitsVal cs) else none

/-- Model of JS string-to-number coercion (unary `+` / `Number()`) on
integer-literal strings: surrounding whitespace is ignored, the empty
(or all-whitespace) string coerces to `0`, an optional sign followed by
digits coerces to its value, and anything else is `NaN`, embedded as
`none`.  Fractional, exponent, hex and `Infinity` literals are outside
this model; no input considered in this development uses them. -/
def jsStrToNumInt (s : String) : Option Int :=
  match trimData s.data with
  | [] => some 0
  | '+' :: rest => (allDigitsVal rest).map (fun n => (n : Int))
  | '-' :: rest => (allDigitsVal rest).map (fun n => -(n : Int))
  | cs => (allDigitsVal cs).map (fun n => (n : Int))

/-- Model of the JS idiom `+s || 0`: `NaN` (and `0` itself) collapse to
`0`, any other numeric value is kept. -/
def jsNumOr0 (s : String) : Int :=
  match jsStrToNumInt s with
  | none => 0
  | some v => v

/-- Model of JS `parseInt(s, 10)`: leading whitespace is skipped, an
optional sign and the longest digit prefix are consumed (trailing
garbage is ignored), and the absence of any digit yields `NaN`,
embedded as `none`. -/
def jsParseInt (s : String) : Option Int :=
  let cs := trimData s.data
  let signed : Int × List Char :=
    match cs with
    | '+' :: r => (1, r)
    | '-' :: r => (-1, r)
    | r => (1, r)
  let ds := signed.2.takeWhile (·.isDigit)
  if ds = [] then none else some (signed.1 * (digitsVal ds : Int))

/-- Model of `x || 0` applied to a possibly-absent, possibly-`NaN`
JS number (`x : Option (Option Int)`, outer `none` = property absent,
inner `none` = `NaN`). -/
def jsFalsyOr0 : Option (Option Int) → Int
  | some (some v) => v
  | _ => 0

/-! ## JS `Map` and `Uint8Array` primitives -/

/-- The empty JS `Map`, as a lookup function. -/
def mapEmpty {β : Type} : String → Option β := fun _ => none

/-- JS `Map.set`: functional pointwise update. -/
def mapUpd {β : Type} (m : String → Option β) (k : String) (v : β) :
    String → Option β :=
  fun x => if x = k then some v else m x

/-- JS `new Map(pairs)`: later pairs overwrite earlier ones. -/
def mapFromPairs {β : Type} (ps : List (String × β)) : String → Option β :=
  ps.foldl (fun m p => mapUpd m p.1 p.2) mapEmpty

/-- In-bounds write into a `Uint8Array` embedded as `Nat → Nat`. -/
def updAt (m : Nat → Nat) (i : Nat) (v : Nat) : Nat → Nat :=
  fun j => if j = i then v else m j

/-! ## Records and taxonomic levels -/

/-- One reference-taxonomy record (`GTDBRecord` in
`types/gene-visualization.ts`): an assembly key plus the five lineage
level values.  `class` and `order` are Lean keywords, so those two
fields are named `cls` and `ord`. -/
structure GTDBRecord where
  assembly : String
  phylum : String
  cls : String
  ord : String
  family : String
  genus : String
deriving Repr, DecidableEq

/-- The five taxonomic levels (`TaxonomicLevel`). -/
inductive TaxLevel where
  | phylum | cls | ord | family | genus
deriving Repr, DecidableEq

/-- Field access `record[level]`. -/
def levelOf (r : GTDBRecord) : TaxLevel → String
  | .phylum => r.phylum
  | .cls => r.cls
  | .ord => r.ord
  | .family => r.family
  | .genus => r.genus

/-! ## Run computation

The run computation appears twice in the source with identical
structure: the by-level branch of the layout effect in
`useGeneVisualization.ts` (lines 222–234) and the per-level rendering
loop in `VisualizationCanvas.tsx` (lines 226–238).  Both scan the
current value sequence left to right, closing a run whenever the value
changes and pushing a final run after the loop. -/

/-- One contiguous run `{cat, start, end}` (inclusive indices); the
source's `end` field is named `stop` because `end` is a Lean keyword. -/
structure Run where
  cat : String
  start : Nat
  stop : Nat
deriving Repr, DecidableEq

/-- The scanning loop: `rest` are the values at indices `k, k+1, …`,
`cat` is the value of the currently open run, which started at index
`start`.  On exhaustion the final run is pushed with inclusive end
`k - 1` (the source pushes `length - 1`, which is the same index). -/
def runsLoop : List String → String → Nat → Nat → List Run
  | [], cat, start, k => [⟨cat, start, k - 1⟩]
  | v :: rest, cat, start, k =>
    if v ≠ cat then ⟨cat, start, k - 1⟩ :: runsLoop rest v k (k + 1)
    else runsLoop rest cat start (k + 1)

/-- Runs of a value sequence: start with `cat = vals[0] || ''` at index
0 and scan from index 1 (`for (let k = 1; …)`). -/
def computeRuns (vals : List String) : List Run :=
  runsLoop (vals.drop 1) (vals.headD "") 0 1

/-! ## Layout engine

`DataProcessor.buildLayout` (data-processing.ts lines 134–185) and the
layout `useEffect` of the hook (useGeneVisualization.ts lines 196–245)
compute the same three-mode division of a total width.  The mode
dispatch `null` / `'__ALL__'` / level-name is embedded as an inductive
type with the three corresponding constructors. -/

/-- Normalization mode: `unnormalized` is `normalizeLevel === null`,
`flatAll` is `'__ALL__'`, `byLevel` carries the taxonomic level. -/
inductive LayoutMode where
  | unnormalized
  | flatAll
  | byLevel (lvl : TaxLevel)
deriving Repr, DecidableEq

/-- The pair of maps produced by the layout: assembly → x offset and
assembly → width. -/
structure LayoutMaps where
  coordMap : String → Option ℚ
  widthMap : String → Option ℚ

/-- Insertion-order deduplication, as performed by a d3 ordinal/band
scale on its domain array (first occurrence kept). -/
def firstDedup (l : List String) : List String :=
  l.foldl (fun acc a => if a ∈ acc then acc else acc ++ [a]) []

/-- `assemblies.slice(run.start, run.end + 1)`: the member records of
a run. -/
def runSlice (assemblies : List GTDBRecord) (r : Run) : List GTDBRecord :=
  (assemblies.drop r.start).take (r.stop + 1 - r.start)

/-- The body of the per-run loop of the by-level layout: give each of
the run's members `w = segW / arr.length` pixels inside the run's
segment (`coordMap.set(a, ri * segW + idx * w); widthMap.set(a, w)`,
with `ri = p.1` the run's position and `idx = q.1` the member's
position inside the run). -/
def layoutRunStep (assemblies : List GTDBRecord) (segW : ℚ)
    (maps : LayoutMaps) (p : Nat × Run) : LayoutMaps :=
  (runSlice assemblies p.2).enum.foldl (fun m q =>
    ⟨mapUpd m.coordMap q.2.assembly ((p.1 : ℚ) * segW +
        (q.1 : ℚ) * (segW / ((runSlice assemblies p.2).length : ℚ))),
     mapUpd m.widthMap q.2.assembly
        (segW / ((runSlice assemblies p.2).length : ℚ))⟩) maps

/-- The by-level branch shared by `DataProcessor.buildLayout` (lines
157–181) and the hook's layout effect (lines 221–244): compute the runs
of the level's value sequence, give each run `totalW / runs.length`
pixels, and divide each run's segment equally among its members. -/
def byLevelLayout (assemblies : List GTDBRecord) (lvl : TaxLevel)
    (totalW : ℚ) : LayoutMaps :=
  (computeRuns (assemblies.map (fun r => levelOf r lvl))).enum.foldl
    (layoutRunStep assemblies
      (totalW /
        ((computeRuns (assemblies.map (fun r => levelOf r lvl))).length : ℚ)))
    ⟨mapEmpty, mapEmpty⟩

/-- `DataProcessor.buildLayout` (lines 134–185).  The result is
`Option`-valued: `none` embeds the `TypeError` raised by the by-level
branch when it evaluates `assemblies[0][normalizeLevel]` on an empty
assembly list (`assemblies[0]` is `undefined` there); every other path
returns a value.  The source fixes `totalWidth` to
`1500 - 120 - 16`; the hook computes it from the container width, so
the embedding takes it as a parameter. -/
def buildLayout (assemblies : List GTDBRecord) (mode : LayoutMode)
    (totalW : ℚ) : Option LayoutMaps :=
  match mode with
  | .unnormalized =>
    -- d3.scaleBand with paddingInner 0: bandwidth = range / |domain|,
    -- position = domain index * bandwidth.
    let dom := firstDedup (assemblies.map (·.assembly))
    let w := totalW / (dom.length : ℚ)
    some (assemblies.foldl (fun maps r =>
      ⟨mapUpd maps.coordMap r.assembly ((dom.indexOf r.assembly : ℚ) * w),
       mapUpd maps.widthMap r.assembly w⟩) ⟨mapEmpty, mapEmpty⟩)
  | .flatAll =>
    let w := totalW / (assemblies.length : ℚ)
    some (assemblies.enum.foldl (fun maps p =>
      ⟨mapUpd maps.coordMap p.2.assembly ((p.1 : ℚ) * w),
       mapUpd maps.widthMap p.2.assembly w⟩) ⟨mapEmpty, mapEmpty⟩)
  | .byLevel lvl =>
    match assemblies with
    | [] => none
    | _ :: _ => some (byLevelLayout assemblies lvl totalW)

/-! ## Hook session state and its operations

`VisualizationState` of `useGeneVisualization.ts`, restricted to the
fields the core transformations read or write.  UI-only fields
(`selectedLevels`, `coordMap`, `widthMap`, `normalizeLevel`,
`isLoading`, `loadingMessage`) and `originalRaw` are omitted: no
embedded operation below touches them except to copy them unchanged. -/

/-- Per-assembly gene count record (`GeneCountData`), a JS object used
as a dictionary. -/
abbrev GeneCounts := String → Option Int

/-- The hook's session state. -/
structure VizState where
  raw : List GTDBRecord
  assemblies : List String
  totalInput : Nat
  geneNames : List String
  /-- The presence matrix (`Uint8Array | null`), flat row-major:
  index `gi * asmCount + ai`. -/
  matrix : Option (Nat → Nat)
  /-- The allocated length of `matrix` (`geneNames.length * asmCount`
  at every allocation site). -/
  matrixLen : Nat
  asmCount : Nat
  countMap : String → Option GeneCounts
  asmIndex : String → Option Nat
  geneIndex : String → Option Nat
  activeGenes : List String
  showPresence : Bool

/-- The initial state of the hook (`useState` initializer). -/
def emptyState : VizState where
  raw := []
  assemblies := []
  totalInput := 0
  geneNames := []
  matrix := none
  matrixLen := 0
  asmCount := 0
  countMap := mapEmpty
  asmIndex := mapEmpty
  geneIndex := mapEmpty
  activeGenes := []
  showPresence := true

/-- `loadGTDBData` (lines 88–107): install the fetched reference
records and build the assembly index `new Map(jsonData.map((d, i) =>
[d.assembly, i]))`. -/
def loadGTDBData (jsonData : List GTDBRecord) (prev : VizState) : VizState :=
  { prev with
    raw := jsonData
    assemblies := jsonData.map (·.assembly)
    asmCount := jsonData.length
    asmIndex := mapFromPairs (jsonData.enum.map (fun p => (p.2.assembly, p.1))) }

/-- The first tab-separated field of a data row (`row[0]`), the
assembly key. -/
def rowKey (rowStr : String) : String :=
  (jsSplitTab rowStr).headD ""

/-- `const cnt = +row[header.indexOf(g)] || 0`: the count a row carries
for gene `g` (a function of `g` and the row only). -/
def rowCnt (header row : List String) (g : String) : Int :=
  jsNumOr0 (row.getD (header.indexOf g) "")

/-- The per-gene body of the row-processing loop of `loadTSVData`
(lines 138–144): record `cm[g] = cnt` and set the matrix cell
`gi * asmCount + ai` to 1 when the count is positive. -/
def geneCellStep (header : List String) (asmCount ai : Nat)
    (row : List String) (mc : (Nat → Nat) × GeneCounts) (p : Nat × String) :
    (Nat → Nat) × GeneCounts :=
  let cnt := rowCnt header row p.2
  (if 0 < cnt then updAt mc.1 (p.1 * asmCount + ai) 1 else mc.1,
   mapUpd mc.2 p.2 cnt)

/-- The per-row body of the TSV-processing loop in `loadTSVData`
(lines 130–147): split the row on tabs, skip it when its key is not in
the assembly index, otherwise fill a fresh count record `cm` and set
the matrix cell for every gene with positive count, then store `cm`
under the key.  The accumulator carries the matrix and the count map
being built. -/
def tsvRowStep (asmIndex : String → Option Nat) (asmCount : Nat)
    (header geneNames : List String)
    (acc : (Nat → Nat) × (String → Option GeneCounts)) (rowStr : String) :
    (Nat → Nat) × (String → Option GeneCounts) :=
  let row := jsSplitTab rowStr
  let asm := row.headD ""
  match asmIndex asm with
  | none => acc
  | some ai =>
    let res := geneNames.enum.foldl (geneCellStep header asmCount ai row)
      (acc.1, fun _ => none)
    (res.1, mapUpd acc.2 asm res.2)

/-- The header columns: `lines.shift()?.split('\t') || []`. -/
def tsvHeader (lines : List String) : List String :=
  match lines with
  | [] => []
  | h :: _ => jsSplitTab h

/-- The gene (value-column) names: header columns ending in
`'_count'`. -/
def tsvGenes (lines : List String) : List String :=
  (tsvHeader lines).filter (fun h => strEndsWith h "_count")

/-- The data rows: the non-header non-empty lines
(`lines.filter(Boolean)` after the `shift`). -/
def tsvRows (lines : List String) : List String :=
  lines.tail.filter (fun l => l ≠ "")

/-- `loadTSVData` (lines 109–161).  The input is the line list
`tsvText.trim().split(/\r?\n/)`; the first line is the header
(`lines.shift()`), the remaining non-empty lines are the data rows
(`lines.filter(Boolean)`).  Gene names are the header columns ending in
`'_count'`; the matrix is a fresh zero array of size
`geneNames.length * asmCount`, and the count map is rebuilt from
scratch. -/
def loadTSVData (lines : List String) (prev : VizState) : VizState :=
  let fin := (tsvRows lines).foldl
    (tsvRowStep prev.asmIndex prev.asmCount (tsvHeader lines)
      (tsvGenes lines))
    ((fun _ => 0), mapEmpty)
  { prev with
    totalInput := (tsvRows lines).length
    geneNames := tsvGenes lines
    matrix := some fin.1
    matrixLen := (tsvGenes lines).length * prev.asmCount
    geneIndex := mapFromPairs ((tsvGenes lines).enum.map
      (fun p => (p.2, p.1)))
    countMap := fin.2 }

/-- `togglePresence` (lines 397–412): with no matrix loaded the state
is returned unchanged; otherwise every cell of the allocated range is
flipped `0 ↔ 1` into a fresh array (indices outside the range keep the
fresh array's 0) and the `showPresence` flag is negated. -/
def togglePresence (s : VizState) : VizState :=
  match s.matrix with
  | none => s
  | some m =>
    { s with
      matrix := some (fun i =>
        if i < s.matrixLen then (if m i ≠ 0 then 0 else 1) else 0)
      showPresence := !s.showPresence }

/-- `a.replace(/_count$/, '')`: strip one trailing `_count`. -/
def stripCountSuffix (a : String) : String :=
  if strEndsWith a "_count" then String.mk (a.data.take (a.data.length - 6)) else a

/-- The synthesized gene name
```${a.replace(/_count$/,'')}${useCounts ? '>' : '-'}${b.replace(/_count$/,'')}``` -/
def diffLabel (useCounts : Bool) (a b : String) : String :=
  stripCountSuffix a ++ (if useCounts then ">" else "-") ++ stripCountSuffix b

/-- The two presence bits of a difference row (lines 456–459): read the
two counts with `cm[g] || 0` and compare by count
(`useCounts`) or by exclusive presence. -/
def diffPBits (gene1 gene2 : String) (useCounts : Bool) (cm : GeneCounts) :
    Bool × Bool :=
  let c1 := jsFalsyOr0 (some (cm gene1))
  let c2 := jsFalsyOr0 (some (cm gene2))
  (if useCounts then decide (c2 < c1) else decide (0 < c1 ∧ c2 = 0),
   if useCounts then decide (c1 < c2) else decide (0 < c2 ∧ c1 = 0))

/-- The per-assembly body of `addDifferenceVisualization`'s loop
(lines 450–467): look up the assembly ordinal (skipping on a miss),
decide the two presence bits, write the two new matrix rows' cells and
record the bits in the count record under the two new names. -/
def diffRowStep (s : VizState) (gene1 gene2 name1 name2 : String)
    (useCounts : Bool) (oldN : Nat)
    (acc : (Nat → Nat) × (String → Option GeneCounts)) (a : String) :
    (Nat → Nat) × (String → Option GeneCounts) :=
  match s.asmIndex a with
  | none => acc
  | some ai =>
    let cm := (acc.2 a).getD (fun _ => none)
    let p := diffPBits gene1 gene2 useCounts cm
    let cm2 := mapUpd (mapUpd cm name1 (if p.1 then 1 else 0)) name2
      (if p.2 then 1 else 0)
    let m1 := updAt acc.1 (oldN * s.asmCount + ai) (if p.1 then 1 else 0)
    let m2 := updAt m1 ((oldN + 1) * s.asmCount + ai) (if p.2 then 1 else 0)
    (m2, mapUpd acc.2 a cm2)

/-- The value stored at flat index `i` of the state's matrix (a `null`
matrix reads as 0). -/
def matrixVal (s : VizState) (i : Nat) : Nat :=
  match s.matrix with
  | some m => m i
  | none => 0

/-- `addDifferenceVisualization` (lines 414–481).  The guard
`!gene1 || !gene2 || gene1 === gene2` makes the operation the identity
(the source only resets the loading flags, which are not part of the
embedded state).  Otherwise the two labels are appended to the gene
list, entered in the gene index at ordinals `oldN` and `oldN + 1`, the
matrix is reallocated to the new size with the old cells copied
(`newMatrix.set(prev.matrix || new Uint8Array(0))`), and the loop over
the active assemblies fills the two new rows and count entries. -/
def addDifferenceVisualization (gene1 gene2 : String) (useCounts : Bool)
    (s : VizState) : VizState :=
  if gene1 = "" ∨ gene2 = "" ∨ gene1 = gene2 then s
  else
    let oldN := s.geneNames.length
    let name1 := diffLabel useCounts gene1 gene2
    let name2 := diffLabel useCounts gene2 gene1
    let newGeneNames := s.geneNames ++ [name1, name2]
    let base : Nat → Nat := fun i =>
      if i < s.matrixLen then matrixVal s i else 0
    let fin := s.assemblies.foldl
      (diffRowStep s gene1 gene2 name1 name2 useCounts oldN)
      (base, s.countMap)
    { s with
      geneNames := newGeneNames
      geneIndex := mapUpd (mapUpd s.geneIndex name1 oldN) name2 (oldN + 1)
      matrix := some fin.1
      matrixLen := newGeneNames.length * s.asmCount
      countMap := fin.2
      activeGenes := s.activeGenes ++ [name1, name2] }

/-! ## The legacy `DataProcessor` class (`data-processing.ts`) -/

/-- The result record of `DataProcessor.processTsvData`.  Count values
are `Option Int` (`none` = `NaN`, producible by `parseInt` on a
non-numeric field). -/
structure ProcessedData where
  assemblies : List GTDBRecord
  geneNames : List String
  matrix : List (List Nat)
  countMap : String → Option (String → Option (Option Int))
  asmIndex : String → Option Nat
  geneIndex : String → Option Nat

/-- `DataProcessor.processTsvData` (lines 38–102).  The input is the
line list `tsvContent.trim().split('\n')` paired with the previously
loaded reference data (`this.originalData`).  Gene names are
`headers.slice(1)`; each data row with a non-empty key stores
`parseInt(parts[j] || '0', 10)` for every field after the first
(missing/empty fields become `'0'`, non-numeric ones become `NaN`);
the matrix is then rebuilt over the reference records whose key has a
count entry. -/
def processTsvData (originalData : List GTDBRecord) (lines : List String) :
    ProcessedData :=
  let headers := jsSplitTab (lines.headD "")
  let geneNames := headers.drop 1
  let geneIndex := mapFromPairs (geneNames.enum.map (fun p => (p.2, p.1)))
  let step := fun (acc : (String → Option (String → Option (Option Int)))
      × (String → Option Nat) × Nat) (line : String) =>
    let parts := jsSplitTab line
    let assembly := parts.headD ""
    if assembly ≠ "" then
      let geneData := (parts.enum.drop 1).foldl
        (fun (gd : String → Option (Option Int)) p =>
          let geneName := headers.getD p.1 ""
          let field := p.2
          let count := jsParseInt (if field = "" then "0" else field)
          mapUpd gd geneName count)
        (fun _ => none)
      (mapUpd acc.1 assembly geneData, mapUpd acc.2.1 assembly acc.2.2,
        acc.2.2 + 1)
    else acc
  let fin := (lines.drop 1).foldl step (mapEmpty, mapEmpty, 0)
  let countMap := fin.1
  let asmIndex := fin.2.1
  let filteredAssemblies := originalData.filter
    (fun asm => (countMap asm.assembly).isSome)
  let matrix := geneNames.map (fun g =>
    filteredAssemblies.map (fun asm =>
      -- const count = geneData?.[geneNames[i]] || 0
      let count := match countMap asm.assembly with
        | none => 0
        | some gd => jsFalsyOr0 (gd g)
      if 0 < count then 1 else 0))
  { assemblies := filteredAssemblies
    geneNames := geneNames
    matrix := matrix
    countMap := countMap
    asmIndex := asmIndex
    geneIndex := geneIndex }

/-- `DataProcessor.togglePresenceMatrix` (lines 233–235):
`matrix.map(row => row.map(val => val ? 0 : 1))`. -/
def togglePresenceMatrix (matrix : List (List Nat)) : List (List Nat) :=
  matrix.map (fun row => row.map (fun val => if val ≠ 0 then 0 else 1))

/-! ## The matrix/companion consistency invariant (spec §8.2) -/

/-- The matrix cell at gene ordinal `gi`, assembly ordinal `ai`. -/
def cellAt (s : VizState) (gi ai : Nat) : Nat :=
  matrixVal s (gi * s.asmCount + ai)

/-- "The companion count mapping has an entry for `a` whose count for
`g` is greater than 0." -/
def companionPos (s : VizState) (a g : String) : Prop :=
  ∃ cm, s.countMap a = some cm ∧ ∃ c, cm g = some c ∧ 0 < c

/-- Spec §8.2: `matrix[gene(g)][asm(a)] == 1` iff `companion[a][g] > 0`,
for every gene and assembly known to the two index registries. -/
def MatCompanionInv (s : VizState) : Prop :=
  ∀ g gi a ai, s.geneIndex g = some gi → s.asmIndex a = some ai →
    (cellAt s gi ai = 1 ↔ companionPos s a g)

/-! ## Concrete sample data used by counterexamples and witnesses -/

def recX : GTDBRecord := ⟨"X", "P1", "c1", "o1", "f1", "s1"⟩

def recY : GTDBRecord := ⟨"Y", "P1", "c1", "o1", "f1", "s2"⟩

/-- A one-assembly, one-gene TSV load: `X` has 2 copies of `gA`. -/
def demoS1 : VizState :=
  loadTSVData ["Assembly\tgA_count", "X\t2"] (loadGTDBData [recX] emptyState)

/-- Spec §8.8 scenario A: two assemblies, two genes. -/
def demoLoaded2 : VizState :=
  loadTSVData ["Assembly\tgA_count\tgB_count", "X\t2\t0", "Y\t0\t3"]
    (loadGTDBData [recX, recY] emptyState)

/-- One difference-gene synthesis on scenario A. -/
def demoDiff1 : VizState :=
  addDifferenceVisualization "gA_count" "gB_count" false demoLoaded2

/-- The same synthesis request issued a second time. -/
def demoDiff2 : VizState :=
  addDifferenceVisualization "gA_count" "gB_count" false demoDiff1

/-- Scenario C/D shape: phylum values `[P1, P1, P2, P1]`. -/
def cexRecs : List GTDBRecord :=
  [⟨"a", "P1", "c", "o", "f", "s"⟩, ⟨"b", "P1", "c", "o", "f", "s"⟩,
   ⟨"c", "P2", "c", "o", "f", "s"⟩, ⟨"d", "P1", "c", "o", "f", "s"⟩]

/-! ## C8: the guard of `addDifferenceVisualization` is a no-op -/

/-- C8: for every synthesis request in which `gene1` equals `gene2` or
either gene is unspecified (the empty string, JS-falsy), the operation
leaves the whole session state — in particular the gene name list, gene
index, presence matrix, companion count mapping and active-gene list —
unchanged, and raises no error (the embedded operation is total). -/
theorem GTDB_C8_invalid_request_noop (s : VizState) (g1 g2 : String)
    (uc : Bool) (h : g1 = "" ∨ g2 = "" ∨ g1 = g2) :
    addDifferenceVisualization g1 g2 uc s = s := by
  unfold addDifferenceVisualization
  rw [if_pos h]

/-- Witness for C8 at a concrete invalid request. -/
theorem GTDB_C8_witness :
    (("" : String) = "" ∨ ("gA_count" : String) = "" ∨
      ("" : String) = "gA_count") ∧
    addDifferenceVisualization "" "gA_count" true demoLoaded2 = demoLoaded2 :=
  ⟨Or.inl rfl,
   GTDB_C8_invalid_request_noop demoLoaded2 "" "gA_count" true (Or.inl rfl)⟩

/-! ## C9: layout on an empty active list -/

/-- C9: computing the layout over an empty active assembly list yields
empty coordinate and width maps for the unnormalized and `'__ALL__'`
modes without dividing by zero, but the by-level branch of
`DataProcessor.buildLayout` dereferences `assemblies[0][normalizeLevel]`
and raises a `TypeError` (embedded as `none`) instead of producing
empty maps. -/
theorem GTDB_C9_empty_layout (tW : ℚ) :
    buildLayout [] LayoutMode.unnormalized tW = some ⟨mapEmpty, mapEmpty⟩ ∧
    buildLayout [] LayoutMode.flatAll tW = some ⟨mapEmpty, mapEmpty⟩ ∧
    ∀ lvl, buildLayout [] (LayoutMode.byLevel lvl) tW = none :=
  ⟨rfl, rfl, fun _ => rfl⟩

/-! ## C7: non-numeric count fields -/

/-- C7: in the hook's `loadTSVData`, a present but non-numeric value
field is stored as count 0 (`+x || 0`), but in
`DataProcessor.processTsvData` the same field is stored as `NaN`
(`parseInt('abc', 10)`), not 0 — only a missing or empty field falls
back to `'0'` there.  The first conjunct evaluates the legacy path at
the failing input (the stored value is `some none`, i.e. `NaN`), the
third shows the empty-field fallback, the fourth shows the hook's
behaviour on the same input. -/
theorem GTDB_C7_nan_stored :
    ((processTsvData [recX] ["Assembly\tgA_count", "X\tabc"]).countMap
        "X").map (fun gd => gd "gA_count") = some (some none) ∧
    (some (some (none : Option Int)) ≠
      some (some (some (0 : Int)))) ∧
    ((processTsvData [recX] ["Assembly\tgA_count", "X\t"]).countMap
        "X").map (fun gd => gd "gA_count") = some (some (some 0)) ∧
    ((loadTSVData ["Assembly\tgA_count", "X\tabc"]
        (loadGTDBData [recX] emptyState)).countMap "X").map
        (fun cm => cm "gA_count") = some (some 0) :=
  ⟨by decide, by decide, by decide, by decide⟩

/-! ## C5: toggle involution -/

/-- Flipping a 0/1 cell twice is the identity. -/
theorem flip01_flip01 (v : Nat) (h : v = 0 ∨ v = 1) :
    (if (if v ≠ 0 then 0 else 1) ≠ 0 then 0 else 1) = v := by
  rcases h with h | h <;> simp [h]

/-- Row part of the involution. -/
theorem toggleRow_involution (row : List Nat)
    (h : ∀ v ∈ row, v = 0 ∨ v = 1) :
    (row.map (fun val => if val ≠ 0 then 0 else 1)).map
      (fun val => if val ≠ 0 then 0 else 1) = row := by
  induction row with
  | nil => rfl
  | cons v row ih =>
    simp only [List.map_cons, List.cons.injEq]
    exact ⟨flip01_flip01 v (h v (List.mem_cons_self v row)),
      ih fun x hx => h x (List.mem_cons_of_mem _ hx)⟩

/-- C5: on a matrix whose cells all lie in `{0, 1}`, applying the
presence toggle twice restores every cell, and each application
preserves the dimensions — both for `DataProcessor.togglePresenceMatrix`
and for the hook's `togglePresence` (which preserves `matrixLen` and,
applied twice, restores every allocated cell). -/
theorem GTDB_C5_toggle_involution :
    (∀ M : List (List Nat), (∀ row ∈ M, ∀ v ∈ row, v = 0 ∨ v = 1) →
      togglePresenceMatrix (togglePresenceMatrix M) = M) ∧
    (∀ M : List (List Nat),
      (togglePresenceMatrix M).length = M.length ∧
      (togglePresenceMatrix M).map List.length = M.map List.length) ∧
    (∀ s : VizState, (togglePresence s).matrixLen = s.matrixLen) ∧
    (∀ (s : VizState) (i : Nat), i < s.matrixLen →
      (matrixVal s i = 0 ∨ matrixVal s i = 1) →
      matrixVal (togglePresence (togglePresence s)) i = matrixVal s i) := by
  refine ⟨?_, ?_, ?_, ?_⟩
  · intro M
    induction M with
    | nil => exact fun _ => rfl
    | cons row M ih =>
      intro hM
      simp only [togglePresenceMatrix, List.map_cons, List.cons.injEq]
      refine ⟨toggleRow_involution row (hM row (List.mem_cons_self row M)), ?_⟩
      exact ih fun r hr => hM r (List.mem_cons_of_mem _ hr)
  · intro M
    constructor
    · simp [togglePresenceMatrix]
    · simp [togglePresenceMatrix, Function.comp]
  · intro s
    cases hs : s.matrix with
    | none => simp [togglePresence, hs]
    | some m => simp [togglePresence, hs]
  · intro s i hi h01
    cases hs : s.matrix with
    | none =>
      have hid : togglePresence s = s := by simp [togglePresence, hs]
      rw [hid, hid]
    | some m =>
      have h1 : togglePresence s =
          { s with
            matrix := some (fun j =>
              if j < s.matrixLen then (if m j ≠ 0 then 0 else 1) else 0)
            showPresence := !s.showPresence } := by
        simp [togglePresence, hs]
      have hmv : matrixVal s i = m i := by simp [matrixVal, hs]
      rw [h1]
      simp only [matrixVal, togglePresence, hs, hi, ite_true]
      exact flip01_flip01 (m i) (hmv ▸ h01)

/-- Witness for C5 at a concrete 2×2 matrix and the loaded demo
state. -/
theorem GTDB_C5_witness :
    (∀ row ∈ [[1, 0], [0, 1]], ∀ v ∈ row, v = 0 ∨ v = 1) ∧
    togglePresenceMatrix (togglePresenceMatrix [[1, 0], [0, 1]]) =
      [[1, 0], [0, 1]] :=
  ⟨by decide, GTDB_C5_toggle_involution.1 [[1, 0], [0, 1]] (by decide)⟩

/-! ## C6: synthesized gene names and ordinals -/

/-- C6 counterexample: synthesized names are *not* guaranteed distinct
from existing gene names.  After one synthesis of `gA>gB`-style rows,
`gA-gB` is a gene name; issuing the identical request again synthesizes
the same two names, so the gene list ends up holding `gA-gB` twice. -/
theorem GTDB_C6_cex :
    "gA-gB" ∈ demoDiff1.geneNames ∧
    demoDiff2.geneNames.count "gA-gB" = 2 :=
  ⟨by decide, by decide⟩

/-- C6 amended: for a valid request the two synthesized names are
derived deterministically by `diffLabel` and are appended to the gene
name list and the active-gene list; the gene index maps the second name
to ordinal `oldN + 1` and (when the two names differ) the first name to
ordinal `oldN`.  No uniqueness against existing names is enforced. -/
theorem GTDB_C6_append_ordinals (s : VizState) (g1 g2 : String) (uc : Bool)
    (h1 : g1 ≠ "") (h2 : g2 ≠ "") (h12 : g1 ≠ g2) :
    (addDifferenceVisualization g1 g2 uc s).geneNames
        = s.geneNames ++ [diffLabel uc g1 g2, diffLabel uc g2 g1] ∧
    (addDifferenceVisualization g1 g2 uc s).geneIndex (diffLabel uc g2 g1)
        = some (s.geneNames.length + 1) ∧
    (diffLabel uc g1 g2 ≠ diffLabel uc g2 g1 →
      (addDifferenceVisualization g1 g2 uc s).geneIndex (diffLabel uc g1 g2)
        = some s.geneNames.length) ∧
    (addDifferenceVisualization g1 g2 uc s).activeGenes
        = s.activeGenes ++ [diffLabel uc g1 g2, diffLabel uc g2 g1] := by
  have hg : ¬ (g1 = "" ∨ g2 = "" ∨ g1 = g2) := by
    rintro (h | h | h)
    exacts [h1 h, h2 h, h12 h]
  unfold addDifferenceVisualization
  rw [if_neg hg]
  refine ⟨rfl, by simp [mapUpd], ?_, rfl⟩
  intro hne
  simp [mapUpd, hne]

/-- Witness for C6 on the scenario-A state. -/
theorem GTDB_C6_witness :
    ("gA_count" : String) ≠ "" ∧ ("gB_count" : String) ≠ "" ∧
    ("gA_count" : String) ≠ "gB_count" ∧
    demoDiff1.geneNames = demoLoaded2.geneNames ++
      [diffLabel false "gA_count" "gB_count",
       diffLabel false "gB_count" "gA_count"] ∧
    demoDiff1.geneIndex (diffLabel false "gB_count" "gA_count") =
      some (demoLoaded2.geneNames.length + 1) :=
  ⟨by decide, by decide, by decide,
   (GTDB_C6_append_ordinals demoLoaded2 "gA_count" "gB_count" false
      (by decide) (by decide) (by decide)).1,
   (GTDB_C6_append_ordinals demoLoaded2 "gA_count" "gB_count" false
      (by decide) (by decide) (by decide)).2.1⟩

/-! ## C3: derivation of the gene (value-column) name list -/

/-- If `p h` holds then `h :: t.filter p` is never `t` (no list is a
fixed point of prepending a kept element). -/
theorem cons_filter_ne (p : String → Bool) (h : String) (hp : p h = true) :
    ∀ t : List String, h :: t.filter p ≠ t := by
  intro t
  induction t with
  | nil => simp
  | cons a t ih =>
    intro he
    rw [List.cons_eq_cons] at he
    obtain ⟨rfl, h2⟩ := he
    simp only [List.filter_cons, hp, if_true] at h2
    exact ih h2

/-- Characterization of when the hook's suffix filter coincides with
"header minus its first column". -/
theorem filter_count_eq_drop_iff (header : List String) :
    header.filter (fun h => strEndsWith h "_count") = header.drop 1 ↔
      (header = [] ∨ (strEndsWith (header.headD "") "_count" = false ∧
        ∀ c ∈ header.drop 1, strEndsWith c "_count" = true)) := by
  cases header with
  | nil => simp
  | cons h t =>
    simp only [List.drop_succ_cons, List.drop_zero, List.headD_cons,
      List.cons_ne_nil, false_or]
    constructor
    · intro he
      by_cases hp : strEndsWith h "_count" = true
      · simp only [List.filter_cons, hp, if_true] at he
        exact absurd he (cons_filter_ne _ h hp t)
      · have hp' : strEndsWith h "_count" = false := by
          revert hp
          cases strEndsWith h "_count" <;> simp
        simp only [List.filter_cons, hp', if_false] at he
        exact ⟨hp', fun c hc => List.filter_eq_self.mp he c hc⟩
    · rintro ⟨hh, hall⟩
      simp only [List.filter_cons, hh, if_false]
      exact List.filter_eq_self.mpr hall

/-- The gene names produced by `loadTSVData` are exactly the header
columns ending in `'_count'`. -/
theorem loadTSV_geneNames (lines : List String) (prev : VizState) :
    (loadTSVData lines prev).geneNames =
      (match lines with
        | [] => ([] : List String)
        | h :: _ => jsSplitTab h).filter (fun h => strEndsWith h "_count") := by
  cases lines <;> rfl

/-- C3 counterexample: for the header `Assembly, foo, bar_count` the
hook's derived gene list omits the second column `foo`, so it is not
"the full header list minus its first column". -/
theorem GTDB_C3_cex :
    (loadTSVData ["Assembly\tfoo\tbar_count"] emptyState).geneNames =
      ["bar_count"] ∧
    (["bar_count"] : List String) ≠ ["foo", "bar_count"] :=
  ⟨by decide, by decide⟩

/-- C3 amended: `DataProcessor.processTsvData` derives the value
columns as the full header minus its first column, but the hook's
`loadTSVData` derives them as the header columns ending in `'_count'`;
the two coincide exactly when the first header column does not end in
`'_count'` and every later column does. -/
theorem GTDB_C3_value_columns :
    (∀ (orig : List GTDBRecord) (lines : List String),
      (processTsvData orig lines).geneNames =
        (jsSplitTab (lines.headD "")).drop 1) ∧
    (∀ (lines : List String) (prev : VizState) (header : List String),
      header = (match lines with
        | [] => ([] : List String)
        | h :: _ => jsSplitTab h) →
      ((loadTSVData lines prev).geneNames = header.drop 1 ↔
        (header = [] ∨ (strEndsWith (header.headD "") "_count" = false ∧
          ∀ c ∈ header.drop 1, strEndsWith c "_count" = true)))) := by
  constructor
  · intro orig lines
    rfl
  · intro lines prev header hh
    rw [loadTSV_geneNames lines prev, ← hh]
    exact filter_count_eq_drop_iff header

/-- Witness for C3 at a concrete conforming header and the
counterexample header. -/
theorem GTDB_C3_witness :
    (["Assembly", "gA_count", "gB_count"] =
      (match (["Assembly\tgA_count\tgB_count", "X\t1\t2"] : List String) with
        | [] => ([] : List String)
        | h :: _ => jsSplitTab h)) ∧
    ((loadTSVData ["Assembly\tgA_count\tgB_count", "X\t1\t2"]
        emptyState).geneNames =
      (["Assembly", "gA_count", "gB_count"] : List String).drop 1 ↔
      ((["Assembly", "gA_count", "gB_count"] : List String) = [] ∨
        (strEndsWith ((["Assembly", "gA_count", "gB_count"] :
            List String).headD "") "_count" = false ∧
          ∀ c ∈ (["Assembly", "gA_count", "gB_count"] : List String).drop 1,
            strEndsWith c "_count" = true))) :=
  ⟨by decide,
   GTDB_C3_value_columns.2 ["Assembly\tgA_count\tgB_count", "X\t1\t2"]
     emptyState ["Assembly", "gA_count", "gB_count"] (by decide)⟩

/-! ## C4: the run list partitions the index range -/

/-- Structural facts about the scanning loop `runsLoop rest cat start k`
(for `start < k`): the result is non-empty, its first run starts at
`start` and carries `cat`, its last run stops at the final index
`k + rest.length - 1`, every run satisfies
`start ≤ r.start ≤ r.stop ≤ k + rest.length - 1`, consecutive runs are
adjacent (`next.start = cur.stop + 1`) with distinct values, and run
intervals are pairwise disjoint in order. -/
theorem runsLoop_spec (rest : List String) :
    ∀ (cat : String) (start k : Nat), start < k →
      (runsLoop rest cat start k ≠ [] ∧
        (runsLoop rest cat start k).head?.map Run.start = some start ∧
        (runsLoop rest cat start k).head?.map Run.cat = some cat ∧
        (runsLoop rest cat start k).getLast?.map Run.stop =
          some (k + rest.length - 1) ∧
        (∀ r ∈ runsLoop rest cat start k,
          r.start ≤ r.stop ∧ start ≤ r.start ∧
            r.stop ≤ k + rest.length - 1) ∧
        List.Chain' (fun a b => b.start = a.stop + 1 ∧ b.cat ≠ a.cat)
          (runsLoop rest cat start k) ∧
        List.Pairwise (fun a b => a.stop < b.start)
          (runsLoop rest cat start k)) := by
  induction rest with
  | nil =>
    intro cat start k hk
    refine ⟨by simp [runsLoop], by simp [runsLoop], by simp [runsLoop],
      by simp [runsLoop], ?_, ?_, ?_⟩
    · intro r hr
      simp only [runsLoop, List.mem_singleton] at hr
      subst hr
      refine ⟨?_, ?_, ?_⟩ <;> dsimp <;> omega
    · exact List.chain'_singleton _
    · simp [runsLoop]
  | cons v rest ih =>
    intro cat start k hk
    by_cases hv : v ≠ cat
    · obtain ⟨hne, hhs, hhc, hlast, hmem, hchain, hpw⟩ :=
        ih v k (k + 1) (Nat.lt_succ_self k)
      cases hRS : runsLoop rest v k (k + 1) with
      | nil => exact absurd hRS hne
      | cons r0 RS =>
        rw [hRS] at hhs hhc hlast hmem hchain hpw
        have hr0s : r0.start = k := by simpa using hhs
        have hr0c : r0.cat = v := by simpa using hhc
        simp only [runsLoop, if_pos hv, hRS]
        refine ⟨by simp, by simp, by simp, ?_, ?_, ?_, ?_⟩
        · rw [List.getLast?_cons_cons, hlast]
          simp only [List.length_cons, Option.some.injEq]
          omega
        · intro r hr
          rcases List.mem_cons.mp hr with rfl | hr'
          · refine ⟨?_, ?_, ?_⟩ <;> dsimp <;> omega
          · obtain ⟨hh1, hh2, hh3⟩ := hmem r hr'
            refine ⟨hh1, by omega, ?_⟩
            simp only [List.length_cons]
            omega
        · rw [List.chain'_cons]
          refine ⟨⟨?_, ?_⟩, hchain⟩
          · rw [hr0s]; dsimp; omega
          · rw [hr0c]; dsimp; exact hv
        · rw [List.pairwise_cons]
          refine ⟨?_, hpw⟩
          intro r hr
          obtain ⟨_, hh2, _⟩ := hmem r hr
          dsimp
          omega
    · simp only [runsLoop, if_neg hv]
      obtain ⟨h1, h2, h3, h4, h5, h6, h7⟩ :=
        ih cat start (k + 1) (by omega)
      refine ⟨h1, h2, h3, ?_, ?_, h6, h7⟩
      · rw [h4]
        simp only [List.length_cons, Option.some.injEq]
        omega
      · intro r hr
        obtain ⟨a, b, c⟩ := h5 r hr
        refine ⟨a, b, ?_⟩
        simp only [List.length_cons]
        omega

/-- A chain of adjacent runs covering `[s, e]` contains every index of
the interval. -/
theorem runs_chain_cover :
    ∀ (rs : List Run) (s e i : Nat),
      rs.head?.map Run.start = some s →
      rs.getLast?.map Run.stop = some e →
      List.Chain' (fun a b => b.start = a.stop + 1) rs →
      s ≤ i → i ≤ e → ∃ r ∈ rs, r.start ≤ i ∧ i ≤ r.stop := by
  intro rs
  induction rs with
  | nil => intro s e i hs; simp at hs
  | cons r0 rs ih =>
    intro s e i hs he hc hsi hie
    have hs0 : r0.start = s := by simpa using hs
    cases rs with
    | nil =>
      have he0 : r0.stop = e := by simpa using he
      exact ⟨r0, List.mem_cons_self _ _, by omega, by omega⟩
    | cons r1 rs' =>
      by_cases hcase : i ≤ r0.stop
      · exact ⟨r0, List.mem_cons_self _ _, by omega, hcase⟩
      · rw [List.chain'_cons] at hc
        obtain ⟨hadj, hc'⟩ := hc
        have he' : (r1 :: rs').getLast?.map Run.stop = some e := by
          rw [← he, List.getLast?_cons_cons]
        obtain ⟨r, hr, hr1, hr2⟩ := ih r1.start e i (by simp) he' hc'
          (by omega) hie
        exact ⟨r, List.mem_cons_of_mem _ hr, hr1, hr2⟩

/-- C4: for every non-empty value sequence, the computed runs cover
every index of `[0, length-1]`, stay inside that range with
`start ≤ stop`, have pairwise disjoint index intervals in order (no
overlaps), and no two adjacent runs carry the same value (maximality).
Together with adjacency these say the inclusive intervals exactly
partition `[0, length-1]`. -/
theorem GTDB_C4_runs_partition (vals : List String) (hne : vals ≠ []) :
    (∀ i < vals.length,
      ∃ r ∈ computeRuns vals, r.start ≤ i ∧ i ≤ r.stop) ∧
    (∀ r ∈ computeRuns vals,
      r.start ≤ r.stop ∧ r.stop ≤ vals.length - 1) ∧
    List.Pairwise (fun a b => a.stop < b.start) (computeRuns vals) ∧
    List.Chain' (fun a b => b.cat ≠ a.cat) (computeRuns vals) := by
  obtain ⟨h1, h2, h3, h4, h5, h6, h7⟩ :=
    runsLoop_spec (vals.drop 1) (vals.headD "") 0 1 Nat.zero_lt_one
  have hpos : 0 < vals.length := List.length_pos.mpr hne
  have hlen : (vals.drop 1).length = vals.length - 1 := by
    simp [List.length_drop]
  have h4' : (computeRuns vals).getLast?.map Run.stop =
      some (vals.length - 1) := by
    show (runsLoop (vals.drop 1) (vals.headD "") 0 1).getLast?.map Run.stop
      = some (vals.length - 1)
    rw [h4]
    simp only [Option.some.injEq]
    omega
  refine ⟨?_, ?_, h7, List.Chain'.imp (fun a b hab => hab.2) h6⟩
  · intro i hi
    exact runs_chain_cover (computeRuns vals) 0 (vals.length - 1) i h2 h4'
      (List.Chain'.imp (fun a b hab => hab.1) h6) (Nat.zero_le i) (by omega)
  · intro r hr
    obtain ⟨a, _, c⟩ := h5 r hr
    exact ⟨a, by omega⟩

/-- Witness for C4 on the scenario-C value sequence. -/
theorem GTDB_C4_witness :
    ((["P1", "P1", "P2", "P1"] : List String) ≠ []) ∧
    ((∀ i < (["P1", "P1", "P2", "P1"] : List String).length,
      ∃ r ∈ computeRuns ["P1", "P1", "P2", "P1"],
        r.start ≤ i ∧ i ≤ r.stop) ∧
    (∀ r ∈ computeRuns ["P1", "P1", "P2", "P1"],
      r.start ≤ r.stop ∧
        r.stop ≤ (["P1", "P1", "P2", "P1"] : List String).length - 1) ∧
    List.Pairwise (fun a b => a.stop < b.start)
      (computeRuns ["P1", "P1", "P2", "P1"]) ∧
    List.Chain' (fun a b => b.cat ≠ a.cat)
      (computeRuns ["P1", "P1", "P2", "P1"])) :=
  ⟨by decide, GTDB_C4_runs_partition ["P1", "P1", "P2", "P1"] (by decide)⟩

/-! ## C1: by-level width distribution -/

/-- After the member loop of one run, an assembly's width entry is the
run's member width exactly when the assembly occurs among the processed
members; other entries are untouched. -/
theorem layout_inner_width (w : ℚ) (f : Nat × GTDBRecord → ℚ) :
    ∀ (arrE : List (Nat × GTDBRecord)) (maps : LayoutMaps) (x : String),
      (arrE.foldl (fun m q =>
        ⟨mapUpd m.coordMap q.2.assembly (f q),
         mapUpd m.widthMap q.2.assembly w⟩) maps).widthMap x =
        if x ∈ arrE.map (fun q => q.2.assembly) then some w
        else maps.widthMap x := by
  intro arrE
  induction arrE with
  | nil => intro maps x; simp
  | cons q arrE ih =>
    intro maps x
    simp only [List.foldl_cons, List.map_cons, List.mem_cons]
    rw [ih]
    by_cases hx : x ∈ arrE.map (fun q => q.2.assembly)
    · simp [hx]
    · by_cases hq : x = q.2.assembly
      · simp [hx, hq, mapUpd]
      · simp [hx, hq, mapUpd]

/-- Width entries after one `layoutRunStep`. -/
theorem layoutRunStep_width (assemblies : List GTDBRecord) (segW : ℚ)
    (maps : LayoutMaps) (p : Nat × Run) (x : String) :
    (layoutRunStep assemblies segW maps p).widthMap x =
      if x ∈ (runSlice assemblies p.2).map (·.assembly)
      then some (segW / ((runSlice assemblies p.2).length : ℚ))
      else maps.widthMap x := by
  rw [layoutRunStep,
    layout_inner_width (segW / ((runSlice assemblies p.2).length : ℚ))
      (fun q => (p.1 : ℚ) * segW +
        (q.1 : ℚ) * (segW / ((runSlice assemblies p.2).length : ℚ)))]
  have hm : ((runSlice assemblies p.2).enum).map (fun q => q.2.assembly)
      = (runSlice assemblies p.2).map (·.assembly) := by
    rw [show (fun q : Nat × GTDBRecord => q.2.assembly) =
      ((fun y : GTDBRecord => y.assembly) ∘ Prod.snd) from rfl]
    rw [← List.map_map, List.enum_map_snd]
  rw [hm]

/-- Folding further run steps that all assign the same width to `x`
(or do not touch `x`) preserves a width entry. -/
theorem layout_fold_width_keep (assemblies : List GTDBRecord) (segW : ℚ) :
    ∀ (rsE : List (Nat × Run)) (maps : LayoutMaps) (x : String) (v : ℚ),
      maps.widthMap x = some v →
      (∀ p ∈ rsE, x ∈ (runSlice assemblies p.2).map (·.assembly) →
        segW / ((runSlice assemblies p.2).length : ℚ) = v) →
      (rsE.foldl (layoutRunStep assemblies segW) maps).widthMap x = some v := by
  intro rsE
  induction rsE with
  | nil => intro maps x v hmaps _; exact hmaps
  | cons p rsE ih =>
    intro maps x v hmaps hall
    simp only [List.foldl_cons]
    apply ih
    · rw [layoutRunStep_width]
      by_cases hx : x ∈ (runSlice assemblies p.2).map (·.assembly)
      · rw [if_pos hx, hall p (List.mem_cons_self _ _) hx]
      · rw [if_neg hx]; exact hmaps
    · intro q hq hxq
      exact hall q (List.mem_cons_of_mem _ hq) hxq

/-- If `x` occurs among the members of at least one processed run, and
every run containing it assigns the same width `v`, the final width
entry is `some v`. -/
theorem layout_fold_width_mem (assemblies : List GTDBRecord) (segW : ℚ) :
    ∀ (rsE : List (Nat × Run)) (maps : LayoutMaps) (x : String) (v : ℚ),
      (∃ p ∈ rsE, x ∈ (runSlice assemblies p.2).map (·.assembly)) →
      (∀ p ∈ rsE, x ∈ (runSlice assemblies p.2).map (·.assembly) →
        segW / ((runSlice assemblies p.2).length : ℚ) = v) →
      (rsE.foldl (layoutRunStep assemblies segW) maps).widthMap x = some v := by
  intro rsE
  induction rsE with
  | nil =>
    intro maps x v hex _
    obtain ⟨p, hp, _⟩ := hex
    exact absurd hp (List.not_mem_nil p)
  | cons p rsE ih =>
    intro maps x v hex hall
    by_cases hx : x ∈ (runSlice assemblies p.2).map (·.assembly)
    · simp only [List.foldl_cons]
      apply layout_fold_width_keep
      · rw [layoutRunStep_width, if_pos hx]
        rw [hall p (List.mem_cons_self _ _) hx]
      · intro q hq hxq
        exact hall q (List.mem_cons_of_mem _ hq) hxq
    · obtain ⟨q, hq, hxq⟩ := hex
      have hq' : q ∈ rsE := by
        rcases List.mem_cons.mp hq with rfl | h
        · exact absurd hxq hx
        · exact h
      simp only [List.foldl_cons]
      exact ih _ x v ⟨q, hq', hxq⟩
        (fun q' hq' hxq' => hall q' (List.mem_cons_of_mem _ hq') hxq')

/-- A member of a run's slice sits at a list position inside the run's
inclusive interval. -/
theorem runSlice_mem_pos (assemblies : List GTDBRecord) (r : Run)
    (y : GTDBRecord) (hy : y ∈ runSlice assemblies r) :
    ∃ pos, r.start ≤ pos ∧ pos ≤ r.stop ∧ assemblies[pos]? = some y := by
  simp only [runSlice] at hy
  obtain ⟨j, hj⟩ := List.mem_iff_getElem?.mp hy
  have hjl : j < ((assemblies.drop r.start).take
      (r.stop + 1 - r.start)).length := by
    rcases List.getElem?_eq_some_iff.mp hj with ⟨h, _⟩
    exact h
  have hjt : j < r.stop + 1 - r.start := by
    simp only [List.length_take, List.length_drop] at hjl
    omega
  refine ⟨r.start + j, Nat.le_add_right _ _, by omega, ?_⟩
  rw [← List.getElem?_drop, ← List.getElem?_take_of_lt hjt]
  exact hj

/-- Two runs of a pairwise-disjoint, well-formed run list containing a
common index are the same run. -/
theorem runs_mem_unique (rs : List Run)
    (hpw : List.Pairwise (fun a b => a.stop < b.start) rs)
    (r1 r2 : Run) (h1 : r1 ∈ rs) (h2 : r2 ∈ rs) (pos : Nat)
    (hb1 : r1.start ≤ pos ∧ pos ≤ r1.stop)
    (hb2 : r2.start ≤ pos ∧ pos ≤ r2.stop) : r1 = r2 := by
  obtain ⟨i, hi, hri⟩ := List.mem_iff_getElem.mp h1
  obtain ⟨j, hj, hrj⟩ := List.mem_iff_getElem.mp h2
  rcases Nat.lt_trichotomy i j with h | h | h
  · have hij := List.pairwise_iff_getElem.mp hpw i j hi hj h
    rw [hri, hrj] at hij
    omega
  · subst h
    rw [← hri, hrj]
  · have hij := List.pairwise_iff_getElem.mp hpw j i hj hi h
    rw [hri, hrj] at hij
    omega

/-- With pairwise-distinct assembly names, a name determines its list
position. -/
theorem assembly_pos_unique (assemblies : List GTDBRecord)
    (hnd : (assemblies.map (·.assembly)).Nodup)
    {p q : Nat} {y z : GTDBRecord}
    (hp : assemblies[p]? = some y) (hq : assemblies[q]? = some z)
    (heq : y.assembly = z.assembly) : p = q := by
  rcases List.getElem?_eq_some_iff.mp hp with ⟨hp1, hp2⟩
  rcases List.getElem?_eq_some_iff.mp hq with ⟨hq1, hq2⟩
  have hpl : p < (assemblies.map (·.assembly)).length := by simpa using hp1
  have hql : q < (assemblies.map (·.assembly)).length := by simpa using hq1
  have hpq : (assemblies.map (·.assembly))[p] =
      (assemblies.map (·.assembly))[q] := by
    simp only [List.getElem_map]
    rw [hp2, hq2, heq]
  exact (List.Nodup.getElem_inj_iff hnd).mp hpq

/-- Summation of a constant-valued map. -/
theorem sum_map_const_of_eq {α : Type} (l : List α) (f : α → ℚ) (c : ℚ)
    (h : ∀ a ∈ l, f a = c) : (l.map f).sum = (l.length : ℚ) * c := by
  induction l with
  | nil => simp
  | cons a l ih =>
    rw [List.map_cons, List.sum_cons, h a (List.mem_cons_self a l),
      ih (fun b hb => h b (List.mem_cons_of_mem _ hb)), List.length_cons]
    push_cast
    ring

/-- Every member of a run of the by-level layout receives width
`segW / runSize`, where `segW = totalW / runCount`. -/
theorem byLevel_width_at (recs : List GTDBRecord) (lvl : TaxLevel)
    (totalW : ℚ) (hnd : (recs.map (·.assembly)).Nodup)
    (r : Run) (hr : r ∈ computeRuns (recs.map (fun x => levelOf x lvl)))
    (y : GTDBRecord) (hy : y ∈ runSlice recs r) :
    (byLevelLayout recs lvl totalW).widthMap y.assembly =
      some ((totalW /
        ((computeRuns (recs.map (fun x => levelOf x lvl))).length : ℚ)) /
        ((runSlice recs r).length : ℚ)) := by
  have hpw : List.Pairwise (fun a b => a.stop < b.start)
      (computeRuns (recs.map (fun x => levelOf x lvl))) :=
    (runsLoop_spec ((recs.map (fun x => levelOf x lvl)).drop 1)
      ((recs.map (fun x => levelOf x lvl)).headD "") 0 1
      Nat.zero_lt_one).2.2.2.2.2.2
  rw [byLevelLayout]
  apply layout_fold_width_mem
  · obtain ⟨i, hi, hri⟩ := List.mem_iff_getElem.mp hr
    refine ⟨(i, r), ?_, List.mem_map_of_mem _ hy⟩
    exact List.mem_enum_iff_getElem?.mpr
      (List.getElem?_eq_some_iff.mpr ⟨hi, hri⟩)
  · intro p hp hxp
    have hp2 : p.2 ∈ computeRuns (recs.map (fun x => levelOf x lvl)) := by
      have hsnd := List.enum_map_snd
        (computeRuns (recs.map (fun x => levelOf x lvl)))
      exact hsnd ▸ List.mem_map_of_mem Prod.snd hp
    obtain ⟨y', hy', hyeq⟩ := List.mem_map.mp hxp
    obtain ⟨pos1, hA1, hB1, hC1⟩ := runSlice_mem_pos recs r y hy
    obtain ⟨pos2, hA2, hB2, hC2⟩ := runSlice_mem_pos recs p.2 y' hy'
    have hpos : pos2 = pos1 :=
      assembly_pos_unique recs hnd hC2 hC1 hyeq
    have hreq : p.2 = r :=
      runs_mem_unique _ hpw p.2 r hp2 hr pos1
        ⟨by omega, by omega⟩ ⟨hA1, hB1⟩
    rw [hreq]

/-- C1 amended: for every non-empty assembly list with pairwise-distinct
names, every total width and every level, the by-level layout gives each
of the `r` *runs* of the level's value sequence a total member width of
`totalWidth / r` (each member receives the run's equal share).  A
category's total width is therefore `totalWidth / r` times its number of
runs, which equals `totalWidth / k` over `k` distinct categories only
when every category's members are contiguous (one run per category). -/
theorem GTDB_C1_run_equal_width (recs : List GTDBRecord) (lvl : TaxLevel)
    (totalW : ℚ) (hne : recs ≠ []) (hnd : (recs.map (·.assembly)).Nodup) :
    ∀ r ∈ computeRuns (recs.map (fun x => levelOf x lvl)),
      ((runSlice recs r).map
        (fun y => ((byLevelLayout recs lvl totalW).widthMap
          y.assembly).getD 0)).sum
        = totalW /
          ((computeRuns (recs.map (fun x => levelOf x lvl))).length : ℚ) := by
  intro r hr
  have hsum : ((runSlice recs r).map
      (fun y => ((byLevelLayout recs lvl totalW).widthMap
        y.assembly).getD 0)).sum
      = ((runSlice recs r).length : ℚ) *
        ((totalW /
          ((computeRuns (recs.map (fun x => levelOf x lvl))).length : ℚ)) /
          ((runSlice recs r).length : ℚ)) := by
    apply sum_map_const_of_eq
    intro y hy
    rw [byLevel_width_at recs lvl totalW hnd r hr y hy]
    rfl
  rw [hsum]
  obtain ⟨hss, _, hstop⟩ :=
    (runsLoop_spec ((recs.map (fun x => levelOf x lvl)).drop 1)
      ((recs.map (fun x => levelOf x lvl)).headD "") 0 1
      Nat.zero_lt_one).2.2.2.2.1 r hr
  have hrl : 0 < recs.length := List.length_pos.mpr hne
  have hlpos : 0 < (runSlice recs r).length := by
    simp only [List.length_drop, List.length_map] at hstop
    simp only [runSlice, List.length_take, List.length_drop]
    omega
  have hql : ((runSlice recs r).length : ℚ) ≠ 0 :=
    Nat.cast_ne_zero.mpr (by omega)
  rw [mul_comm]
  exact div_mul_cancel₀ _ hql

/-- C1 counterexample: phylum values `[P1, P1, P2, P1]` over four
distinctly named assemblies with total width 90 give the two distinct
categories unequal totals — the split category `P1` (members `a`, `b`,
`d`) receives 15 + 15 + 30 = 60 ≠ 90 / 2, because the division is by
the run count 3, not by the category count 2. -/
theorem GTDB_C1_cex :
    (firstDedup (cexRecs.map (fun r => levelOf r TaxLevel.phylum))).length
      = 2 ∧
    (cexRecs.filter (fun r => levelOf r TaxLevel.phylum = "P1")).map
      (·.assembly) = ["a", "b", "d"] ∧
    ((byLevelLayout cexRecs TaxLevel.phylum 90).widthMap "a").getD 0 +
      ((byLevelLayout cexRecs TaxLevel.phylum 90).widthMap "b").getD 0 +
      ((byLevelLayout cexRecs TaxLevel.phylum 90).widthMap "d").getD 0
      = 60 ∧
    ((60 : ℚ) ≠ 90 / 2) := by
  refine ⟨by decide, by decide, ?_, by norm_num⟩
  simp +decide only [byLevelLayout, layoutRunStep, runSlice, computeRuns,
    runsLoop, mapUpd, mapEmpty, levelOf, cexRecs, List.enum, List.enumFrom,
    List.foldl_cons, List.foldl_nil, List.drop, List.take, List.length_cons,
    List.length_nil, Option.getD_some]
  norm_num

/-- Witness for C1 on the scenario-C records: each of the three runs
receives 90 / 3 = 30 in total. -/
theorem GTDB_C1_witness :
    (cexRecs ≠ []) ∧ ((cexRecs.map (·.assembly)).Nodup) ∧
    (∀ r ∈ computeRuns (cexRecs.map (fun x => levelOf x TaxLevel.phylum)),
      ((runSlice cexRecs r).map
        (fun y => ((byLevelLayout cexRecs TaxLevel.phylum 90).widthMap
          y.assembly).getD 0)).sum
        = 90 / ((computeRuns
            (cexRecs.map (fun x => levelOf x TaxLevel.phylum))).length
          : ℚ)) :=
  ⟨by decide, by decide,
   GTDB_C1_run_equal_width cexRecs TaxLevel.phylum 90 (by decide)
     (by decide)⟩

/-! ## C10: rows with unknown keys are skipped but counted -/

/-- A row whose key misses the assembly index leaves the accumulator
untouched. -/
theorem tsvRowStep_skip (aIdx : String → Option Nat) (N : Nat)
    (header gl : List String)
    (acc : (Nat → Nat) × (String → Option GeneCounts)) (r : String)
    (h : aIdx ((jsSplitTab r).headD "") = none) :
    tsvRowStep aIdx N header gl acc r = acc := by
  simp only [tsvRowStep, h]

/-- The TSV row fold is unchanged by dropping the rows whose key is not
in the assembly index. -/
theorem tsvfold_skip (aIdx : String → Option Nat) (N : Nat)
    (header gl : List String) :
    ∀ (rows : List String) (acc : (Nat → Nat) × (String → Option GeneCounts)),
      rows.foldl (tsvRowStep aIdx N header gl) acc =
        (rows.filter (fun r => (aIdx (rowKey r)).isSome)).foldl
          (tsvRowStep aIdx N header gl) acc := by
  intro rows
  induction rows with
  | nil => intro acc; rfl
  | cons r rows ih =>
    intro acc
    by_cases hk : (aIdx (rowKey r)).isSome
    · simp only [List.foldl_cons, List.filter_cons, hk, if_true]
      exact ih _
    · have hnone : aIdx ((jsSplitTab r).headD "") = none := by
        rw [show (jsSplitTab r).headD "" = rowKey r from rfl]
        exact Option.not_isSome_iff_eq_none.mp hk
      simp only [List.foldl_cons, List.filter_cons, hk, if_false,
        tsvRowStep_skip aIdx N header gl acc r hnone]
      exact ih acc

/-- Keys that never hit the assembly index never enter the count map. -/
theorem tsvfold_countMap_none (aIdx : String → Option Nat) (N : Nat)
    (header gl : List String) (a : String) (ha : aIdx a = none) :
    ∀ (rows : List String) (acc : (Nat → Nat) × (String → Option GeneCounts)),
      acc.2 a = none →
      (rows.foldl (tsvRowStep aIdx N header gl) acc).2 a = none := by
  intro rows
  induction rows with
  | nil => intro acc hacc; exact hacc
  | cons r rows ih =>
    intro acc hacc
    simp only [List.foldl_cons]
    apply ih
    rcases hkey : aIdx ((jsSplitTab r).headD "") with _ | ai
    · rw [tsvRowStep_skip aIdx N header gl acc r hkey]
      exact hacc
    · simp only [tsvRowStep, hkey, mapUpd]
      have : a ≠ (jsSplitTab r).headD "" := by
        intro he
        rw [he, hkey] at ha
        exact Option.noConfusion ha
      rw [if_neg this]
      exact hacc

/-- C10: a data row whose non-empty key is absent from the assembly
index contributes nothing — the matrix, count map, gene list and gene
index are those obtained from the kept rows alone — while `totalInput`
still counts every non-empty data row, skipped or not, and a key
outside the index never acquires a count-map entry. -/
theorem GTDB_C10_skipped_rows (lines : List String) (prev : VizState) :
    (loadTSVData lines prev).totalInput =
      (lines.tail.filter (fun l => l ≠ "")).length ∧
    (∀ a, prev.asmIndex a = none →
      (loadTSVData lines prev).countMap a = none) ∧
    ((loadTSVData lines prev).matrix =
      (loadTSVData (lines.take 1 ++
        (lines.tail.filter (fun l => l ≠ "")).filter
          (fun l => (prev.asmIndex (rowKey l)).isSome)) prev).matrix ∧
     (loadTSVData lines prev).countMap =
      (loadTSVData (lines.take 1 ++
        (lines.tail.filter (fun l => l ≠ "")).filter
          (fun l => (prev.asmIndex (rowKey l)).isSome)) prev).countMap ∧
     (loadTSVData lines prev).geneNames =
      (loadTSVData (lines.take 1 ++
        (lines.tail.filter (fun l => l ≠ "")).filter
          (fun l => (prev.asmIndex (rowKey l)).isSome)) prev).geneNames ∧
     (loadTSVData lines prev).geneIndex =
      (loadTSVData (lines.take 1 ++
        (lines.tail.filter (fun l => l ≠ "")).filter
          (fun l => (prev.asmIndex (rowKey l)).isSome)) prev).geneIndex) := by
  refine ⟨rfl, ?_, ?_⟩
  · intro a ha
    exact tsvfold_countMap_none prev.asmIndex prev.asmCount _ _ a ha _ _ rfl
  · cases lines with
    | nil => exact ⟨rfl, rfl, rfl, rfl⟩
    | cons h t =>
      have hclean : ((t.filter (fun l => l ≠ "")).filter
          (fun l => (prev.asmIndex (rowKey l)).isSome)).filter
          (fun l => l ≠ "") =
          (t.filter (fun l => l ≠ "")).filter
            (fun l => (prev.asmIndex (rowKey l)).isSome) := by
        apply List.filter_eq_self.mpr
        intro x hx
        have hx1 : x ∈ t.filter (fun l => l ≠ "") :=
          List.mem_of_mem_filter hx
        have hx2 := List.mem_filter.mp hx1
        simpa using hx2.2
      have hfold := tsvfold_skip prev.asmIndex prev.asmCount
        (jsSplitTab h) ((jsSplitTab h).filter (fun c => strEndsWith c "_count"))
        (t.filter (fun l => l ≠ "")) ((fun _ => 0), mapEmpty)
      constructor
      · show some _ = some _
        simp only [loadTSVData, tsvHeader, tsvGenes, tsvRows, List.take,
          List.tail, List.cons_append, List.nil_append, hclean]
        rw [hfold]
      constructor
      · show (_ : String → Option GeneCounts) = _
        simp only [loadTSVData, tsvHeader, tsvGenes, tsvRows, List.take,
          List.tail, List.cons_append, List.nil_append, hclean]
        rw [hfold]
      constructor
      · simp only [loadTSVData, tsvHeader, tsvGenes, tsvRows, List.take,
          List.tail, List.cons_append, List.nil_append]
      · simp only [loadTSVData, tsvHeader, tsvGenes, tsvRows, List.take,
          List.tail, List.cons_append, List.nil_append]

/-- Witness for C10: the row keyed `Q` (not a reference assembly) gets
no count-map entry, yet `totalInput` counts both data rows. -/
theorem GTDB_C10_witness :
    ((loadGTDBData [recX] emptyState).asmIndex "Q" = none) ∧
    (loadTSVData ["Assembly\tgA_count", "Q\t5", "X\t1"]
      (loadGTDBData [recX] emptyState)).countMap "Q" = none ∧
    (loadTSVData ["Assembly\tgA_count", "Q\t5", "X\t1"]
      (loadGTDBData [recX] emptyState)).totalInput = 2 :=
  ⟨by decide,
   (GTDB_C10_skipped_rows ["Assembly\tgA_count", "Q\t5", "X\t1"]
      (loadGTDBData [recX] emptyState)).2.1 "Q" (by decide),
   Eq.trans
     (GTDB_C10_skipped_rows ["Assembly\tgA_count", "Q\t5", "X\t1"]
        (loadGTDBData [recX] emptyState)).1 (by decide)⟩

/-! ## C2: matrix / companion-count consistency

Support lemmas about the index registries and the two folds that build
and extend the matrix and count map. -/

/-- Fold form of `mapFromPairs_mem`. -/
theorem mapFromPairs_mem_aux {β : Type} (ps : List (String × β)) :
    ∀ (m : String → Option β) (k : String) (v : β),
      (ps.foldl (fun m p => mapUpd m p.1 p.2) m) k = some v →
      (k, v) ∈ ps ∨ m k = some v := by
  induction ps with
  | nil => intro m k v hm; exact Or.inr hm
  | cons p ps ih =>
    intro m k v hm
    simp only [List.foldl_cons] at hm
    rcases ih _ k v hm with h' | h'
    · exact Or.inl (List.mem_cons_of_mem _ h')
    · by_cases hk : k = p.1
      · subst hk
        have h2 : some p.2 = some v := by simpa [mapUpd] using h'
        obtain rfl := Option.some.inj h2
        exact Or.inl (List.mem_cons_self p ps)
      · simp only [mapUpd, if_neg hk] at h'
        exact Or.inr h'

/-- A `Map` built from a pair list only holds pairs of that list. -/
theorem mapFromPairs_mem {β : Type} (ps : List (String × β)) (k : String)
    (v : β) (h : mapFromPairs ps k = some v) : (k, v) ∈ ps := by
  rcases mapFromPairs_mem_aux ps mapEmpty k v h with h' | h'
  · exact h'
  · exact absurd h' (by simp [mapEmpty])

/-- A gene-index hit names the gene stored at that ordinal. -/
theorem geneIndex_mem (gl : List String) (g : String) (gi : Nat)
    (h : mapFromPairs (gl.enum.map (fun p => (p.2, p.1))) g = some gi) :
    gl[gi]? = some g := by
  obtain ⟨p, hp, heq⟩ := List.mem_map.mp (mapFromPairs_mem _ _ _ h)
  obtain ⟨h1, h2⟩ := Prod.mk.injEq .. ▸ heq
  have hget := List.mem_enum_iff_getElem?.mp hp
  rw [← h1, ← h2]
  exact hget

/-- An assembly-index hit of `loadGTDBData` names the record stored at
that ordinal. -/
theorem gtdb_asmIndex_mem (jsonData : List GTDBRecord) (s0 : VizState)
    (a : String) (i : Nat)
    (h : (loadGTDBData jsonData s0).asmIndex a = some i) :
    i < jsonData.length ∧ jsonData[i]?.map (·.assembly) = some a := by
  obtain ⟨p, hp, heq⟩ := List.mem_map.mp (mapFromPairs_mem _ _ _ h)
  obtain ⟨h1, h2⟩ := Prod.mk.injEq .. ▸ heq
  have hget := List.mem_enum_iff_getElem?.mp hp
  subst h2
  refine ⟨?_, ?_⟩
  · rcases List.getElem?_eq_some_iff.mp hget with ⟨hb, _⟩
    exact hb
  · rw [hget]
    simp [h1]

/-- The assembly index of `loadGTDBData` is injective and bounded by
the record count, with no distinctness assumption on the input (each
ordinal is written for exactly one enumeration position). -/
theorem gtdb_asmIndex_inj (jsonData : List GTDBRecord) (s0 : VizState)
    (a b : String) (i : Nat)
    (ha : (loadGTDBData jsonData s0).asmIndex a = some i)
    (hb : (loadGTDBData jsonData s0).asmIndex b = some i) : a = b := by
  obtain ⟨_, ha2⟩ := gtdb_asmIndex_mem jsonData s0 a i ha
  obtain ⟨_, hb2⟩ := gtdb_asmIndex_mem jsonData s0 b i hb
  rw [ha2] at hb2
  exact Option.some.inj hb2

/-- Decomposition of a flat matrix index into (gene ordinal, assembly
ordinal). -/
theorem flatIdx_inj (N gi gj ai aj : Nat) (h1 : ai < N) (h2 : aj < N)
    (h : gi * N + ai = gj * N + aj) : gi = gj ∧ ai = aj := by
  have hN : 0 < N := by omega
  have e1 : (gi * N + ai) / N = gi := by
    rw [Nat.mul_comm gi N, Nat.mul_add_div hN, Nat.div_eq_of_lt h1]
    omega
  have e2 : (gj * N + aj) / N = gj := by
    rw [Nat.mul_comm gj N, Nat.mul_add_div hN, Nat.div_eq_of_lt h2]
    omega
  have e3 : (gi * N + ai) % N = ai := by
    rw [Nat.mul_comm gi N, Nat.mul_add_mod, Nat.mod_eq_of_lt h1]
  have e4 : (gj * N + aj) % N = aj := by
    rw [Nat.mul_comm gj N, Nat.mul_add_mod, Nat.mod_eq_of_lt h2]
  constructor
  · rw [← e1, ← e2, h]
  · rw [← e3, ← e4, h]

/-- Split a list at a member whose image under `f` occurs exactly once
(`f`-images pairwise distinct). -/
theorem nodup_map_split {α β : Type} (l : List α) (f : α → β)
    (hnd : (l.map f).Nodup) (x : α) (hx : x ∈ l) :
    ∃ l1 l2, l = l1 ++ x :: l2 ∧ f x ∉ l1.map f ∧ f x ∉ l2.map f := by
  obtain ⟨l1, l2, rfl⟩ := List.append_of_mem hx
  refine ⟨l1, l2, rfl, ?_, ?_⟩
  · have h := List.nodup_append.mp (by simpa using hnd)
    intro hmem
    exact h.2.2 hmem (by simp)
  · have h := List.nodup_append.mp (by simpa using hnd)
    exact (List.nodup_cons.mp h.2.1).1

/-- Split a duplicate-free list at a member. -/
theorem nodup_split {α : Type} (l : List α) (hnd : l.Nodup) (x : α)
    (hx : x ∈ l) :
    ∃ l1 l2, l = l1 ++ x :: l2 ∧ x ∉ l1 ∧ x ∉ l2 := by
  obtain ⟨l1, l2, rfl, h1, h2⟩ :=
    nodup_map_split l id (by simpa using hnd) x hx
  exact ⟨l1, l2, rfl, by simpa using h1, by simpa using h2⟩

/-- After the per-gene loop of one row, the count record holds exactly
the row's count for every processed gene. -/
theorem geneFold_cm (header : List String) (N ai : Nat) (row : List String) :
    ∀ (glE : List (Nat × String)) (mc : (Nat → Nat) × GeneCounts)
      (g : String),
      (glE.foldl (geneCellStep header N ai row) mc).2 g =
        if g ∈ glE.map Prod.snd then some (rowCnt header row g)
        else mc.2 g := by
  intro glE
  induction glE with
  | nil => intro mc g; simp
  | cons p glE ih =>
    intro mc g
    simp only [List.foldl_cons, List.map_cons, List.mem_cons]
    rw [ih]
    by_cases hx : g ∈ glE.map Prod.snd
    · simp [hx]
    · by_cases hg : g = p.2
      · simp [hx, hg, geneCellStep, mapUpd]
      · simp [hx, hg, geneCellStep, mapUpd]

/-- After the per-gene loop of one row, a matrix cell is 1 exactly when
some processed gene addresses it with a positive count; other cells are
untouched. -/
theorem geneFold_mat (header : List String) (N ai : Nat) (row : List String) :
    ∀ (glE : List (Nat × String)) (mc : (Nat → Nat) × GeneCounts)
      (idx : Nat),
      (glE.foldl (geneCellStep header N ai row) mc).1 idx =
        if (∃ p ∈ glE, idx = p.1 * N + ai ∧ 0 < rowCnt header row p.2)
        then 1 else mc.1 idx := by
  intro glE
  induction glE with
  | nil => intro mc idx; simp
  | cons p glE ih =>
    intro mc idx
    simp only [List.foldl_cons]
    rw [ih]
    by_cases hex : ∃ q ∈ glE, idx = q.1 * N + ai ∧ 0 < rowCnt header row q.2
    · rw [if_pos hex, if_pos ?_]
      obtain ⟨q, hq, h⟩ := hex
      exact ⟨q, List.mem_cons_of_mem _ hq, h⟩
    · rw [if_neg hex]
      by_cases hc : 0 < rowCnt header row p.2
      · by_cases hidx : idx = p.1 * N + ai
        · rw [if_pos ⟨p, List.mem_cons_self _ _, hidx, hc⟩]
          simp [geneCellStep, hc, updAt, hidx]
        · rw [if_neg ?_]
          · simp [geneCellStep, hc, updAt, hidx]
          · rintro ⟨q, hq, hqi, hqc⟩
            rcases List.mem_cons.mp hq with rfl | hq'
            · exact hidx hqi
            · exact hex ⟨q, hq', hqi, hqc⟩
      · rw [if_neg ?_]
        · simp [geneCellStep, hc]
        · rintro ⟨q, hq, hqi, hqc⟩
          rcases List.mem_cons.mp hq with rfl | hq'
          · exact hc hqc
          · exact hex ⟨q, hq', hqi, hqc⟩

/-- Keys absent from the processed rows keep their count-map entry. -/
theorem rowFold_cm_not_mem (aIdx : String → Option Nat) (N : Nat)
    (header gl : List String) :
    ∀ (rows : List String) (acc : (Nat → Nat) × (String → Option GeneCounts))
      (a : String), a ∉ rows.map rowKey →
      (rows.foldl (tsvRowStep aIdx N header gl) acc).2 a = acc.2 a := by
  intro rows
  induction rows with
  | nil => intro acc a _; rfl
  | cons r rows ih =>
    intro acc a ha
    simp only [List.map_cons, List.mem_cons] at ha
    push_neg at ha
    simp only [List.foldl_cons]
    rw [ih _ a ha.2]
    rcases hk : aIdx ((jsSplitTab r).headD "") with _ | ai
    · rw [tsvRowStep_skip _ _ _ _ _ _ hk]
    · simp only [tsvRowStep, hk, mapUpd]
      rw [if_neg ?_]
      exact fun he => ha.1 (by rw [he]; rfl)

/-- The count-map entry of a row's key after processing that row (and
rows that do not share the key). -/
theorem rowFold_cm_at (aIdx : String → Option Nat) (N : Nat)
    (header gl : List String) (r : String) (ai : Nat)
    (hai : aIdx (rowKey r) = some ai)
    (l2 : List String) (acc : (Nat → Nat) × (String → Option GeneCounts))
    (hno : rowKey r ∉ l2.map rowKey) :
    ((r :: l2).foldl (tsvRowStep aIdx N header gl) acc).2 (rowKey r) =
      some ((gl.enum.foldl (geneCellStep header N ai (jsSplitTab r))
        (acc.1, fun _ => none)).2) := by
  simp only [List.foldl_cons]
  rw [rowFold_cm_not_mem _ _ _ _ l2 _ _ hno]
  have hai' : aIdx ((jsSplitTab r).headD "") = some ai := hai
  simp only [tsvRowStep, hai', mapUpd]
  rw [if_pos (show rowKey r = (jsSplitTab r).headD "" from rfl)]

/-- A cell of the matrix being built is 1 exactly when some processed
row addresses it with a positive count (cells are never reset). -/
theorem rowFold_mat_one (aIdx : String → Option Nat) (N : Nat)
    (header gl : List String) :
    ∀ (rows : List String) (acc : (Nat → Nat) × (String → Option GeneCounts))
      (idx : Nat),
      ((rows.foldl (tsvRowStep aIdx N header gl) acc).1 idx = 1 ↔
        (∃ r ∈ rows, ∃ ai, aIdx (rowKey r) = some ai ∧
          ∃ p ∈ gl.enum, idx = p.1 * N + ai ∧
            0 < rowCnt header (jsSplitTab r) p.2) ∨ acc.1 idx = 1) := by
  intro rows
  induction rows with
  | nil =>
    intro acc idx
    simp
  | cons r rows ih =>
    intro acc idx
    simp only [List.foldl_cons]
    rw [ih]
    rcases hk : aIdx (rowKey r) with _ | ai
    · rw [tsvRowStep_skip _ _ _ _ _ _ hk]
      constructor
      · rintro (⟨r', hr', h⟩ | hacc)
        · exact Or.inl ⟨r', List.mem_cons_of_mem _ hr', h⟩
        · exact Or.inr hacc
      · rintro (⟨r', hr', h⟩ | hacc)
        · rcases List.mem_cons.mp hr' with rfl | hr''
          · obtain ⟨ai', hai', _⟩ := h
            rw [hk] at hai'
            exact Option.noConfusion hai'
          · exact Or.inl ⟨r', hr'', h⟩
        · exact Or.inr hacc
    · have hstep : (tsvRowStep aIdx N header gl acc r).1 idx =
          if (∃ p ∈ gl.enum, idx = p.1 * N + ai ∧
            0 < rowCnt header (jsSplitTab r) p.2) then 1 else acc.1 idx := by
        have hk' : aIdx ((jsSplitTab r).headD "") = some ai := hk
        simp only [tsvRowStep, hk']
        exact geneFold_mat header N ai (jsSplitTab r) gl.enum
          (acc.1, fun _ => none) idx
      rw [hstep]
      by_cases hex : ∃ p ∈ gl.enum, idx = p.1 * N + ai ∧
          0 < rowCnt header (jsSplitTab r) p.2
      · rw [if_pos hex]
        constructor
        · intro _
          exact Or.inl ⟨r, List.mem_cons_self _ _, ai, hk, hex⟩
        · intro _
          exact Or.inr rfl
      · rw [if_neg hex]
        constructor
        · rintro (⟨r', hr', h⟩ | hacc)
          · exact Or.inl ⟨r', List.mem_cons_of_mem _ hr', h⟩
          · exact Or.inr hacc
        · rintro (⟨r', hr', h⟩ | hacc)
          · rcases List.mem_cons.mp hr' with rfl | hr''
            · obtain ⟨ai', hai', hp⟩ := h
              rw [hk] at hai'
              obtain rfl := Option.some.inj hai'
              exact absurd hp hex
            · exact Or.inl ⟨r', hr'', h⟩
          · exact Or.inr hacc

/-- The TSV fold only ever writes the value 1 into the matrix. -/
theorem rowFold_mat_pres (aIdx : String → Option Nat) (N : Nat)
    (header gl : List String) :
    ∀ (rows : List String) (acc : (Nat → Nat) × (String → Option GeneCounts))
      (idx : Nat),
      (rows.foldl (tsvRowStep aIdx N header gl) acc).1 idx = acc.1 idx ∨
      (rows.foldl (tsvRowStep aIdx N header gl) acc).1 idx = 1 := by
  intro rows
  induction rows with
  | nil => intro acc idx; exact Or.inl rfl
  | cons r rows ih =>
    intro acc idx
    simp only [List.foldl_cons]
    have hstep : (tsvRowStep aIdx N header gl acc r).1 idx = acc.1 idx ∨
        (tsvRowStep aIdx N header gl acc r).1 idx = 1 := by
      rcases hk : aIdx ((jsSplitTab r).headD "") with _ | ai
      · rw [tsvRowStep_skip _ _ _ _ _ _ hk]
        exact Or.inl rfl
      · simp only [tsvRowStep, hk]
        rw [geneFold_mat header N ai (jsSplitTab r) gl.enum
          (acc.1, fun _ => none) idx]
        by_cases hex : ∃ p ∈ gl.enum, idx = p.1 * N + ai ∧
            0 < rowCnt header (jsSplitTab r) p.2
        · rw [if_pos hex]; exact Or.inr rfl
        · rw [if_neg hex]; exact Or.inl rfl
    rcases ih (tsvRowStep aIdx N header gl acc r) idx with h | h
    · rw [h]
      exact hstep
    · exact Or.inr h

/-- Genes outside the gene list never acquire a count entry. -/
theorem rowFold_cm_domain (aIdx : String → Option Nat) (N : Nat)
    (header gl : List String) (g : String) (hg : g ∉ gl) :
    ∀ (rows : List String) (acc : (Nat → Nat) × (String → Option GeneCounts)),
      (∀ a cm, acc.2 a = some cm → cm g = none) →
      ∀ a cm, (rows.foldl (tsvRowStep aIdx N header gl) acc).2 a = some cm →
        cm g = none := by
  intro rows
  induction rows with
  | nil => intro acc hacc a cm h; exact hacc a cm h
  | cons r rows ih =>
    intro acc hacc
    simp only [List.foldl_cons]
    apply ih
    intro a cm h
    rcases hk : aIdx ((jsSplitTab r).headD "") with _ | ai
    · rw [tsvRowStep_skip _ _ _ _ _ _ hk] at h
      exact hacc a cm h
    · simp only [tsvRowStep, hk, mapUpd] at h
      by_cases ha : a = (jsSplitTab r).headD ""
      · rw [if_pos ha] at h
        obtain rfl := Option.some.inj h
        rw [geneFold_cm]
        rw [if_neg ?_]
        intro hmem
        rw [List.enum_map_snd] at hmem
        exact hg hmem
      · rw [if_neg ha] at h
        exact hacc a cm h

/-- Core consistency of the TSV build: given a bounded injective
assembly index and pairwise-distinct row keys, a matrix cell is 1
exactly when the companion record stores a positive count for the
addressed gene and assembly. -/
theorem tsv_inv_core (aIdx : String → Option Nat) (N : Nat)
    (header gl rows : List String)
    (haiBound : ∀ a i, aIdx a = some i → i < N)
    (haiInj : ∀ a b i, aIdx a = some i → aIdx b = some i → a = b)
    (hkeys : (rows.map rowKey).Nodup)
    (g : String) (gi : Nat) (a : String) (ai : Nat)
    (hg : mapFromPairs (gl.enum.map (fun p => (p.2, p.1))) g = some gi)
    (ha : aIdx a = some ai) :
    ((rows.foldl (tsvRowStep aIdx N header gl)
        ((fun _ => 0), mapEmpty)).1 (gi * N + ai) = 1 ↔
      ∃ cm, (rows.foldl (tsvRowStep aIdx N header gl)
          ((fun _ => 0), mapEmpty)).2 a = some cm ∧
        ∃ c, cm g = some c ∧ 0 < c) := by
  have hgl : gl[gi]? = some g := geneIndex_mem gl g gi hg
  have hgmem : g ∈ gl := List.getElem?_mem hgl
  have haiN : ai < N := haiBound a ai ha
  have hsimp : (((fun _ => 0) : Nat → Nat) (gi * N + ai) = 1) ↔ False := by
    simp
  rw [rowFold_mat_one aIdx N header gl rows ((fun _ => 0), mapEmpty)
    (gi * N + ai), hsimp, or_false]
  by_cases hmem : a ∈ rows.map rowKey
  · obtain ⟨r, hrmem, hrk⟩ := List.mem_map.mp hmem
    subst hrk
    obtain ⟨l1, l2, rfl, hnot1, hnot2⟩ :=
      nodup_map_split rows rowKey hkeys r hrmem
    have hrmem' : r ∈ l1 ++ r :: l2 :=
      List.mem_append_right _ (List.mem_cons_self _ _)
    rw [List.foldl_append,
      rowFold_cm_at aIdx N header gl r ai ha l2 _ hnot2]
    have hCMg : (gl.enum.foldl (geneCellStep header N ai (jsSplitTab r))
        (((l1.foldl (tsvRowStep aIdx N header gl)
          ((fun _ => 0), mapEmpty))).1, fun _ => none)).2 g =
        some (rowCnt header (jsSplitTab r) g) := by
      rw [geneFold_cm, List.enum_map_snd, if_pos hgmem]
    constructor
    · rintro ⟨r', hr', ai', hai', p, hp, hidx, hcnt⟩
      have hai'N : ai' < N := haiBound _ _ hai'
      obtain ⟨hgi, hai_eq⟩ := flatIdx_inj N gi p.1 ai ai' haiN hai'N hidx
      have hai'' : aIdx (rowKey r') = some ai := by
        rw [hai_eq]; exact hai'
      have hkeyeq : rowKey r' = rowKey r := haiInj _ _ _ hai'' ha
      have hr'r : r' = r :=
        List.inj_on_of_nodup_map hkeys hr' hrmem' hkeyeq
      subst hr'r
      have hp2 : gl[gi]? = some p.2 := by
        rw [hgi]; exact List.mem_enum_iff_getElem?.mp hp
      rw [hgl] at hp2
      obtain rfl := Option.some.inj hp2
      exact ⟨_, rfl, _, hCMg, hcnt⟩
    · rintro ⟨cm, hcmEq, c, hcg, hc⟩
      obtain rfl := Option.some.inj hcmEq
      rw [hCMg] at hcg
      obtain rfl := Option.some.inj hcg
      refine ⟨r, hrmem', ai, ha, (gi, g), ?_, rfl, hc⟩
      exact List.mem_enum_iff_getElem?.mpr hgl
  · have hcm : (rows.foldl (tsvRowStep aIdx N header gl)
        ((fun _ => 0), mapEmpty)).2 a = none := by
      rw [rowFold_cm_not_mem aIdx N header gl rows _ a hmem]
      rfl
    rw [hcm]
    constructor
    · rintro ⟨r', hr', ai', hai', p, hp, hidx, hcnt⟩
      have hai'N : ai' < N := haiBound _ _ hai'
      obtain ⟨_, hai_eq⟩ := flatIdx_inj N gi p.1 ai ai' haiN hai'N hidx
      have hai'' : aIdx (rowKey r') = some ai := by
        rw [hai_eq]; exact hai'
      have hkeyeq : rowKey r' = a := haiInj _ _ _ hai'' ha
      exact absurd (hkeyeq ▸ List.mem_map_of_mem rowKey hr') hmem
    · rintro ⟨cm, hcmEq, _⟩
      exact Option.noConfusion hcmEq

/-- The matrix/companion invariant holds after a TSV load with
pairwise-distinct data-row keys. -/
theorem load_invariant (jsonData : List GTDBRecord) (lines : List String)
    (s0 : VizState)
    (hkeys : ((tsvRows lines).map rowKey).Nodup) :
    MatCompanionInv (loadTSVData lines (loadGTDBData jsonData s0)) := by
  intro g gi a ai hg ha
  have hg' : mapFromPairs ((tsvGenes lines).enum.map
      (fun p => (p.2, p.1))) g = some gi := hg
  have ha' : (loadGTDBData jsonData s0).asmIndex a = some ai := ha
  exact tsv_inv_core (loadGTDBData jsonData s0).asmIndex jsonData.length
    (tsvHeader lines) (tsvGenes lines) (tsvRows lines)
    (fun a i h => (gtdb_asmIndex_mem jsonData s0 a i h).1)
    (fun a b i h1 h2 => gtdb_asmIndex_inj jsonData s0 a b i h1 h2)
    hkeys g gi a ai hg' ha'

/-- Freshly loaded matrices only hold 0 and 1. -/
theorem load_mat01 (lines : List String) (prev : VizState) (i : Nat) :
    matrixVal (loadTSVData lines prev) i = 0 ∨
    matrixVal (loadTSVData lines prev) i = 1 := by
  rcases rowFold_mat_pres prev.asmIndex prev.asmCount
    (tsvHeader lines) (tsvGenes lines) (tsvRows lines)
    ((fun _ => 0), mapEmpty) i with h | h
  · exact Or.inl h
  · exact Or.inr h

/-- Index pairs known to the registries address cells inside the
allocated matrix of a loaded state. -/
theorem load_bound (jsonData : List GTDBRecord) (lines : List String)
    (s0 : VizState) :
    ∀ g gi a ai,
      (loadTSVData lines (loadGTDBData jsonData s0)).geneIndex g = some gi →
      (loadTSVData lines (loadGTDBData jsonData s0)).asmIndex a = some ai →
      gi * (loadTSVData lines (loadGTDBData jsonData s0)).asmCount + ai <
        (loadTSVData lines (loadGTDBData jsonData s0)).matrixLen := by
  intro g gi a ai hg ha
  have hg' : mapFromPairs ((tsvGenes lines).enum.map
      (fun p => (p.2, p.1))) g = some gi := hg
  have ha' : (loadGTDBData jsonData s0).asmIndex a = some ai := ha
  have hgl := geneIndex_mem (tsvGenes lines) g gi hg'
  have hgiB : gi < (tsvGenes lines).length := by
    rcases List.getElem?_eq_some_iff.mp hgl with ⟨hb, _⟩
    exact hb
  have haiB : ai < jsonData.length :=
    (gtdb_asmIndex_mem jsonData s0 a ai ha').1
  show gi * jsonData.length + ai <
    (tsvGenes lines).length * jsonData.length
  calc gi * jsonData.length + ai < gi * jsonData.length + jsonData.length :=
        by omega
    _ = (gi + 1) * jsonData.length := by ring
    _ ≤ _ := Nat.mul_le_mul_right jsonData.length (by omega)

/-- Toggling inverts the matrix/companion relationship: a cell of the
toggled matrix is 1 exactly when the (unchanged) companion record does
*not* hold a positive count. -/
theorem toggle_inverts (s : VizState) (m : Nat → Nat) (hms : s.matrix = some m)
    (hbound : ∀ g gi a ai, s.geneIndex g = some gi → s.asmIndex a = some ai →
      gi * s.asmCount + ai < s.matrixLen)
    (h01 : ∀ i, matrixVal s i = 0 ∨ matrixVal s i = 1)
    (hinv : MatCompanionInv s) :
    ∀ g gi a ai,
      (togglePresence s).geneIndex g = some gi →
      (togglePresence s).asmIndex a = some ai →
      (cellAt (togglePresence s) gi ai = 1 ↔
        ¬ companionPos (togglePresence s) a g) := by
  have hgT : (togglePresence s).geneIndex = s.geneIndex := by
    simp [togglePresence, hms]
  have haT : (togglePresence s).asmIndex = s.asmIndex := by
    simp [togglePresence, hms]
  have hcT : (togglePresence s).countMap = s.countMap := by
    simp [togglePresence, hms]
  have hnT : (togglePresence s).asmCount = s.asmCount := by
    simp [togglePresence, hms]
  intro g gi a ai hg ha
  rw [hgT] at hg
  rw [haT] at ha
  have hidx := hbound g gi a ai hg ha
  have hmv : ∀ j, matrixVal s j = m j := by
    intro j
    simp [matrixVal, hms]
  have hcell : cellAt (togglePresence s) gi ai =
      (if m (gi * s.asmCount + ai) ≠ 0 then 0 else 1) := by
    rw [cellAt, hnT]
    simp [togglePresence, hms, matrixVal, hidx]
  have hcomp : companionPos (togglePresence s) a g ↔ companionPos s a g := by
    simp only [companionPos, hcT]
  rw [hcell, hcomp]
  have hiff := hinv g gi a ai hg ha
  have hold : cellAt s gi ai = m (gi * s.asmCount + ai) := by
    rw [cellAt, hmv]
  rcases h01 (gi * s.asmCount + ai) with h0 | h1
  · rw [hmv] at h0
    rw [h0]
    have hnc : ¬ companionPos s a g := by
      intro hc
      have h1' := hiff.mpr hc
      rw [hold, h0] at h1'
      exact absurd h1' (by omega)
    simp [hnc]
  · rw [hmv] at h1
    rw [h1]
    have hc : companionPos s a g := hiff.mp (by rw [hold, h1])
    simp [hc]

/-- Assemblies outside the processed list keep their count-map entry
during difference synthesis. -/
theorem diffFold_cm_not_mem (s : VizState) (g1 g2 n1 n2 : String)
    (uc : Bool) (oldN : Nat) :
    ∀ (l : List String) (acc : (Nat → Nat) × (String → Option GeneCounts))
      (x : String), x ∉ l →
      (l.foldl (diffRowStep s g1 g2 n1 n2 uc oldN) acc).2 x = acc.2 x := by
  intro l
  induction l with
  | nil => intro acc x _; rfl
  | cons a l ih =>
    intro acc x hx
    simp only [List.mem_cons] at hx
    push_neg at hx
    simp only [List.foldl_cons]
    rw [ih _ x hx.2]
    rcases hk : s.asmIndex a with _ | ai
    · simp only [diffRowStep, hk]
    · simp only [diffRowStep, hk, mapUpd]
      rw [if_neg hx.1]

/-- Matrix cells not addressed by any processed assembly's two new rows
are untouched by difference synthesis. -/
theorem diffFold_mat_pres (s : VizState) (g1 g2 n1 n2 : String)
    (uc : Bool) (oldN : Nat) :
    ∀ (l : List String) (acc : (Nat → Nat) × (String → Option GeneCounts))
      (idx : Nat),
      (∀ a' ∈ l, ∀ ai', s.asmIndex a' = some ai' →
        idx ≠ oldN * s.asmCount + ai' ∧
          idx ≠ (oldN + 1) * s.asmCount + ai') →
      (l.foldl (diffRowStep s g1 g2 n1 n2 uc oldN) acc).1 idx =
        acc.1 idx := by
  intro l
  induction l with
  | nil => intro acc idx _; rfl
  | cons a l ih =>
    intro acc idx hno
    simp only [List.foldl_cons]
    rw [ih _ idx (fun a' ha' => hno a' (List.mem_cons_of_mem _ ha'))]
    rcases hk : s.asmIndex a with _ | ai
    · simp only [diffRowStep, hk]
    · obtain ⟨hne1, hne2⟩ := hno a (List.mem_cons_self _ _) ai hk
      simp only [diffRowStep, hk, updAt]
      rw [if_neg hne2, if_neg hne1]

/-- Effect of difference synthesis on a processed assembly occurring
exactly once: its count record gets the two new keys, and its two new
matrix cells hold the two presence bits, all computed from its previous
count record. -/
theorem diffFold_at (s : VizState) (g1 g2 n1 n2 : String) (uc : Bool)
    (oldN : Nat)
    (haiBound : ∀ a' i, s.asmIndex a' = some i → i < s.asmCount)
    (haiInj : ∀ a' b i, s.asmIndex a' = some i → s.asmIndex b = some i →
      a' = b)
    (a : String) (ai : Nat) (ha : s.asmIndex a = some ai)
    (l1 l2 : List String) (hn1 : a ∉ l1) (hn2 : a ∉ l2)
    (acc : (Nat → Nat) × (String → Option GeneCounts)) :
    ((l1 ++ a :: l2).foldl (diffRowStep s g1 g2 n1 n2 uc oldN) acc).2 a =
      some (mapUpd (mapUpd ((acc.2 a).getD (fun _ => none)) n1
        (if (diffPBits g1 g2 uc ((acc.2 a).getD (fun _ => none))).1
          then 1 else 0)) n2
        (if (diffPBits g1 g2 uc ((acc.2 a).getD (fun _ => none))).2
          then 1 else 0)) ∧
    ((l1 ++ a :: l2).foldl (diffRowStep s g1 g2 n1 n2 uc oldN) acc).1
        (oldN * s.asmCount + ai) =
      (if (diffPBits g1 g2 uc ((acc.2 a).getD (fun _ => none))).1
        then 1 else 0) ∧
    ((l1 ++ a :: l2).foldl (diffRowStep s g1 g2 n1 n2 uc oldN) acc).1
        ((oldN + 1) * s.asmCount + ai) =
      (if (diffPBits g1 g2 uc ((acc.2 a).getD (fun _ => none))).2
        then 1 else 0) := by
  have haiN : ai < s.asmCount := haiBound a ai ha
  have hi12 : oldN * s.asmCount + ai ≠ (oldN + 1) * s.asmCount + ai := by
    intro he
    obtain ⟨he1, _⟩ := flatIdx_inj s.asmCount oldN (oldN + 1) ai ai
      haiN haiN he
    omega
  have haccL : (l1.foldl (diffRowStep s g1 g2 n1 n2 uc oldN) acc).2 a =
      acc.2 a := diffFold_cm_not_mem s g1 g2 n1 n2 uc oldN l1 acc a hn1
  have hl2mat : ∀ a' ∈ l2, ∀ ai', s.asmIndex a' = some ai' →
      (oldN * s.asmCount + ai ≠ oldN * s.asmCount + ai' ∧
        oldN * s.asmCount + ai ≠ (oldN + 1) * s.asmCount + ai') ∧
      ((oldN + 1) * s.asmCount + ai ≠ oldN * s.asmCount + ai' ∧
        (oldN + 1) * s.asmCount + ai ≠ (oldN + 1) * s.asmCount + ai') := by
    intro a' ha' ai' hai'
    have hai'N : ai' < s.asmCount := haiBound a' ai' hai'
    have hainei : ai ≠ ai' := by
      intro he
      subst he
      exact hn2 ((haiInj a a' ai ha hai') ▸ ha')
    refine ⟨⟨?_, ?_⟩, ⟨?_, ?_⟩⟩ <;> intro he
    · exact hainei (flatIdx_inj s.asmCount oldN oldN ai ai' haiN hai'N he).2
    · have := flatIdx_inj s.asmCount oldN (oldN + 1) ai ai' haiN hai'N he
      omega
    · have := flatIdx_inj s.asmCount (oldN + 1) oldN ai ai' haiN hai'N he
      omega
    · exact hainei
        (flatIdx_inj s.asmCount (oldN + 1) (oldN + 1) ai ai' haiN hai'N he).2
  rw [List.foldl_append, List.foldl_cons]
  refine ⟨?_, ?_, ?_⟩
  · rw [diffFold_cm_not_mem s g1 g2 n1 n2 uc oldN l2 _ a hn2]
    simp only [diffRowStep, ha, haccL, mapUpd]
    rw [if_true]
  · rw [diffFold_mat_pres s g1 g2 n1 n2 uc oldN l2 _ _
      (fun a' ha' ai' hai' => ((hl2mat a' ha' ai' hai').1))]
    simp only [diffRowStep, ha, haccL, updAt]
    rw [if_neg hi12, if_true]
  · rw [diffFold_mat_pres s g1 g2 n1 n2 uc oldN l2 _ _
      (fun a' ha' ai' hai' => ((hl2mat a' ha' ai' hai').2))]
    simp only [diffRowStep, ha, haccL, updAt]
    rw [if_true]

/-- Core preservation of the matrix/companion invariant by difference
synthesis: over a well-formed state whose two synthesized names are
fresh (distinct from each other and absent from every count record),
the extended matrix and count map satisfy the invariant at every
registered gene/assembly pair of the extended registries. -/
theorem diff_inv_core (s : VizState) (g1 g2 n1 n2 : String) (uc : Bool)
    (base : Nat → Nat)
    (hlen : s.matrixLen = s.geneNames.length * s.asmCount)
    (hbase : ∀ gj aj, gj < s.geneNames.length → aj < s.asmCount →
      base (gj * s.asmCount + aj) = cellAt s gj aj)
    (hbase0 : ∀ idx, s.matrixLen ≤ idx → base idx = 0)
    (hgBound : ∀ g gi, s.geneIndex g = some gi → gi < s.geneNames.length)
    (haiBound : ∀ a i, s.asmIndex a = some i → i < s.asmCount)
    (haiInj : ∀ a b i, s.asmIndex a = some i → s.asmIndex b = some i →
      a = b)
    (hnd : s.assemblies.Nodup)
    (hf1 : ∀ a cm, s.countMap a = some cm → cm n1 = none)
    (hf2 : ∀ a cm, s.countMap a = some cm → cm n2 = none)
    (hnn : n1 ≠ n2)
    (hinv : MatCompanionInv s) :
    ∀ g gi a ai,
      mapUpd (mapUpd s.geneIndex n1 s.geneNames.length) n2
        (s.geneNames.length + 1) g = some gi →
      s.asmIndex a = some ai →
      ((s.assemblies.foldl (diffRowStep s g1 g2 n1 n2 uc s.geneNames.length)
          (base, s.countMap)).1 (gi * s.asmCount + ai) = 1 ↔
        ∃ cm, (s.assemblies.foldl
            (diffRowStep s g1 g2 n1 n2 uc s.geneNames.length)
            (base, s.countMap)).2 a = some cm ∧
          ∃ c, cm g = some c ∧ 0 < c) := by
  intro g gi a ai hg ha
  have haiN : ai < s.asmCount := haiBound a ai ha
  by_cases hgn2 : g = n2
  · rw [hgn2] at hg ⊢
    have hgi : gi = s.geneNames.length + 1 := by
      simp only [mapUpd, if_pos rfl] at hg
      exact (Option.some.inj hg).symm
    subst hgi
    by_cases hamem : a ∈ s.assemblies
    · obtain ⟨l1, l2, hsplit, hm1, hm2⟩ := nodup_split s.assemblies hnd a hamem
      rw [hsplit]
      obtain ⟨hc, _, hx2⟩ := diffFold_at s g1 g2 n1 n2 uc s.geneNames.length
        haiBound haiInj a ai ha l1 l2 hm1 hm2 (base, s.countMap)
      rw [hx2, hc]
      by_cases hp : (diffPBits g1 g2 uc
          (((base, s.countMap).2 a).getD (fun _ => none))).2
      · constructor
        · intro _
          exact ⟨_, rfl, 1, by simp [mapUpd, hp], by omega⟩
        · intro _
          simp [hp]
      · constructor
        · intro h1
          simp [hp] at h1
        · rintro ⟨cm, hcmEq, c, hcg, hcpos⟩
          obtain rfl := Option.some.inj hcmEq
          simp only [mapUpd, if_pos rfl, Option.some.injEq] at hcg
          rw [if_neg hp] at hcg
          simp only [if_true, Option.some.injEq] at hcg
          omega
    · have hcm' : (s.assemblies.foldl
          (diffRowStep s g1 g2 n1 n2 uc s.geneNames.length)
          (base, s.countMap)).2 a = s.countMap a :=
        diffFold_cm_not_mem s g1 g2 n1 n2 uc s.geneNames.length
          s.assemblies _ a hamem
      rw [hcm']
      have hmatp : (s.assemblies.foldl
          (diffRowStep s g1 g2 n1 n2 uc s.geneNames.length)
          (base, s.countMap)).1
          ((s.geneNames.length + 1) * s.asmCount + ai) =
          base ((s.geneNames.length + 1) * s.asmCount + ai) := by
        apply diffFold_mat_pres
        intro a' ha' ai' hai'
        have hai'N : ai' < s.asmCount := haiBound a' ai' hai'
        have hane : ai ≠ ai' := by
          intro he
          subst he
          exact hamem ((haiInj a a' ai ha hai') ▸ ha')
        constructor <;> intro he
        · have := flatIdx_inj s.asmCount (s.geneNames.length + 1)
            s.geneNames.length ai ai' haiN hai'N he
          omega
        · exact hane (flatIdx_inj s.asmCount (s.geneNames.length + 1)
            (s.geneNames.length + 1) ai ai' haiN hai'N he).2
      rw [hmatp, hbase0 _ ?_]
      · constructor
        · intro h
          exact absurd h (by omega)
        · rintro ⟨cm, hcmEq, c, hcg, hcpos⟩
          rw [hf2 a cm hcmEq] at hcg
          exact Option.noConfusion hcg
      · rw [hlen]
        have hmul : s.geneNames.length * s.asmCount ≤
            (s.geneNames.length + 1) * s.asmCount :=
          Nat.mul_le_mul_right _ (by omega)
        omega
  · by_cases hgn1 : g = n1
    · rw [hgn1] at hg ⊢
      have hgi : gi = s.geneNames.length := by
        simp only [mapUpd, if_neg hnn, if_pos rfl] at hg
        exact (Option.some.inj hg).symm
      subst hgi
      by_cases hamem : a ∈ s.assemblies
      · obtain ⟨l1, l2, hsplit, hm1, hm2⟩ :=
          nodup_split s.assemblies hnd a hamem
        rw [hsplit]
        obtain ⟨hc, hx1, _⟩ := diffFold_at s g1 g2 n1 n2 uc
          s.geneNames.length haiBound haiInj a ai ha l1 l2 hm1 hm2
          (base, s.countMap)
        rw [hx1, hc]
        by_cases hp : (diffPBits g1 g2 uc
            (((base, s.countMap).2 a).getD (fun _ => none))).1
        · constructor
          · intro _
            refine ⟨_, rfl, 1, ?_, by omega⟩
            simp [mapUpd, hnn, hp]
          · intro _
            simp [hp]
        · constructor
          · intro h1
            simp [hp] at h1
          · rintro ⟨cm, hcmEq, c, hcg, hcpos⟩
            obtain rfl := Option.some.inj hcmEq
            simp only [mapUpd, if_neg hnn, if_pos rfl,
              Option.some.injEq] at hcg
            rw [if_neg hp] at hcg
            simp only [if_true, Option.some.injEq] at hcg
            omega
      · have hcm' : (s.assemblies.foldl
            (diffRowStep s g1 g2 n1 n2 uc s.geneNames.length)
            (base, s.countMap)).2 a = s.countMap a :=
          diffFold_cm_not_mem s g1 g2 n1 n2 uc s.geneNames.length
            s.assemblies _ a hamem
        rw [hcm']
        have hmatp : (s.assemblies.foldl
            (diffRowStep s g1 g2 n1 n2 uc s.geneNames.length)
            (base, s.countMap)).1
            (s.geneNames.length * s.asmCount + ai) =
            base (s.geneNames.length * s.asmCount + ai) := by
          apply diffFold_mat_pres
          intro a' ha' ai' hai'
          have hai'N : ai' < s.asmCount := haiBound a' ai' hai'
          have hane : ai ≠ ai' := by
            intro he
            subst he
            exact hamem ((haiInj a a' ai ha hai') ▸ ha')
          constructor <;> intro he
          · exact hane (flatIdx_inj s.asmCount s.geneNames.length
              s.geneNames.length ai ai' haiN hai'N he).2
          · have := flatIdx_inj s.asmCount s.geneNames.length
              (s.geneNames.length + 1) ai ai' haiN hai'N he
            omega
        rw [hmatp, hbase0 _ ?_]
        · constructor
          · intro h
            exact absurd h (by omega)
          · rintro ⟨cm, hcmEq, c, hcg, hcpos⟩
            rw [hf1 a cm hcmEq] at hcg
            exact Option.noConfusion hcg
        · rw [hlen]
          exact Nat.le_add_right _ _
    · have hgold : s.geneIndex g = some gi := by
        simp only [mapUpd, if_neg hgn2, if_neg hgn1] at hg
        exact hg
      have hgiB : gi < s.geneNames.length := hgBound g gi hgold
      have hiff := hinv g gi a ai hgold ha
      have hmatp : (s.assemblies.foldl
          (diffRowStep s g1 g2 n1 n2 uc s.geneNames.length)
          (base, s.countMap)).1 (gi * s.asmCount + ai) =
          base (gi * s.asmCount + ai) := by
        apply diffFold_mat_pres
        intro a' ha' ai' hai'
        have hai'N : ai' < s.asmCount := haiBound a' ai' hai'
        constructor <;> intro he
        · have := flatIdx_inj s.asmCount gi s.geneNames.length ai ai'
            haiN hai'N he
          omega
        · have := flatIdx_inj s.asmCount gi (s.geneNames.length + 1)
            ai ai' haiN hai'N he
          omega
      rw [hmatp, hbase gi ai hgiB haiN]
      by_cases hamem : a ∈ s.assemblies
      · obtain ⟨l1, l2, hsplit, hm1, hm2⟩ :=
          nodup_split s.assemblies hnd a hamem
        rw [hsplit]
        obtain ⟨hc, _, _⟩ := diffFold_at s g1 g2 n1 n2 uc
          s.geneNames.length haiBound haiInj a ai ha l1 l2 hm1 hm2
          (base, s.countMap)
        rw [hc]
        rcases hsc : s.countMap a with _ | cm
        · have hnc : ¬ companionPos s a g := by
            rintro ⟨cm', hcm', _⟩
            rw [hsc] at hcm'
            exact Option.noConfusion hcm'
          constructor
          · intro h1
            exact absurd (hiff.mp h1) hnc
          · rintro ⟨cm', hcmEq, c, hcg, hcpos⟩
            obtain rfl := Option.some.inj hcmEq
            simp only [mapUpd, if_neg hgn2, if_neg hgn1, hsc,
              Option.getD_none] at hcg
            exact Option.noConfusion hcg
        · have hcomp_eq : companionPos s a g ↔ ∃ c, cm g = some c ∧ 0 < c := by
            constructor
            · rintro ⟨cm', h', hcx⟩
              rw [hsc] at h'
              obtain rfl := Option.some.inj h'
              exact hcx
            · intro hcx
              exact ⟨cm, hsc, hcx⟩
          constructor
          · intro h1
            obtain ⟨c, hcg, hcpos⟩ := hcomp_eq.mp (hiff.mp h1)
            refine ⟨_, rfl, c, ?_, hcpos⟩
            simp only [mapUpd, if_neg hgn2, if_neg hgn1, hsc,
              Option.getD_some]
            exact hcg
          · rintro ⟨cm', hcmEq, c, hcg, hcpos⟩
            obtain rfl := Option.some.inj hcmEq
            simp only [mapUpd, if_neg hgn2, if_neg hgn1, hsc,
              Option.getD_some] at hcg
            exact hiff.mpr (hcomp_eq.mpr ⟨c, hcg, hcpos⟩)
      · have hcm' : (s.assemblies.foldl
            (diffRowStep s g1 g2 n1 n2 uc s.geneNames.length)
            (base, s.countMap)).2 a = s.countMap a :=
          diffFold_cm_not_mem s g1 g2 n1 n2 uc s.geneNames.length
            s.assemblies _ a hamem
        rw [hcm']
        exact hiff

/-- Difference synthesis preserves the matrix/companion invariant on a
well-formed state provided the two synthesized labels are distinct and
absent from every count record. -/
theorem diff_preserves (s : VizState) (g1 g2 : String) (uc : Bool)
    (hlen : s.matrixLen = s.geneNames.length * s.asmCount)
    (hgBound : ∀ g gi, s.geneIndex g = some gi → gi < s.geneNames.length)
    (haiBound : ∀ a i, s.asmIndex a = some i → i < s.asmCount)
    (haiInj : ∀ a b i, s.asmIndex a = some i → s.asmIndex b = some i →
      a = b)
    (hnd : s.assemblies.Nodup)
    (hf1 : ∀ a cm, s.countMap a = some cm → cm (diffLabel uc g1 g2) = none)
    (hf2 : ∀ a cm, s.countMap a = some cm → cm (diffLabel uc g2 g1) = none)
    (hnn : diffLabel uc g1 g2 ≠ diffLabel uc g2 g1)
    (hinv : MatCompanionInv s) :
    MatCompanionInv (addDifferenceVisualization g1 g2 uc s) := by
  by_cases hguard : g1 = "" ∨ g2 = "" ∨ g1 = g2
  · simp only [addDifferenceVisualization, if_pos hguard]
    exact hinv
  · have hb : ∀ gj aj, gj < s.geneNames.length → aj < s.asmCount →
        (fun i => if i < s.matrixLen then matrixVal s i else 0)
          (gj * s.asmCount + aj) = cellAt s gj aj := by
      intro gj aj hgj haj
      have hidx : gj * s.asmCount + aj < s.matrixLen := by
        rw [hlen]
        calc gj * s.asmCount + aj < gj * s.asmCount + s.asmCount := by omega
          _ = (gj + 1) * s.asmCount := by ring
          _ ≤ s.geneNames.length * s.asmCount :=
            Nat.mul_le_mul_right _ (by omega)
      simp only [if_pos hidx]
      rfl
    have hb0 : ∀ idx, s.matrixLen ≤ idx →
        (fun i => if i < s.matrixLen then matrixVal s i else 0) idx = 0 := by
      intro idx hidx
      simp only [if_neg (Nat.not_lt.mpr hidx)]
    intro g gi a ai hg ha
    simp only [addDifferenceVisualization, if_neg hguard] at hg ha
    simp only [addDifferenceVisualization, if_neg hguard, cellAt,
      matrixVal, companionPos]
    exact diff_inv_core s g1 g2 (diffLabel uc g1 g2) (diffLabel uc g2 g1)
      uc (fun i => if i < s.matrixLen then matrixVal s i else 0) hlen hb
      hb0 hgBound haiBound haiInj hnd hf1 hf2 hnn hinv g gi a ai hg ha

/-- C2 counterexample: the presence toggle breaks the claimed
matrix/companion invariant.  In the one-assembly, one-gene demo state
(`X` has 2 copies of `gA`), after `togglePresence` the registries still
map `gA_count` to ordinal 0 and `X` to ordinal 0, the companion count
for `gA_count` under `X` is still the positive 2, yet the toggled cell
is 0 — the claimed equivalence fails. -/
theorem GTDB_C2_cex :
    (togglePresence demoS1).geneIndex "gA_count" = some 0 ∧
    (togglePresence demoS1).asmIndex "X" = some 0 ∧
    ¬ (cellAt (togglePresence demoS1) 0 0 = 1 ↔
        companionPos (togglePresence demoS1) "X" "gA_count") := by
  refine ⟨by decide, by decide, ?_⟩
  have h : ((togglePresence demoS1).countMap "X").map
      (fun cm => cm "gA_count") = some (some 2) := by decide
  have hcell : cellAt (togglePresence demoS1) 0 0 = 0 := by decide
  rcases hx : (togglePresence demoS1).countMap "X" with _ | cm
  · rw [hx] at h
    exact absurd h (by simp)
  · rw [hx] at h
    have h2 : cm "gA_count" = some 2 := by simpa using h
    intro hiff
    have := hiff.mpr ⟨cm, hx, 2, h2, by norm_num⟩
    rw [hcell] at this
    exact absurd this (by norm_num)

/-- C2 (corrected): the invariant `cell(gene g, assembly a) = 1 iff the
companion count record of `a` holds a positive count for `g`' holds for
every registered pair after the initial TSV load (given
pairwise-distinct row keys and assembly names), and is preserved by
difference-gene synthesis when the two synthesized labels are distinct
and not among the loaded gene columns; the presence toggle, however,
INVERTS it — after `togglePresence` a cell is 1 exactly when the
companion count is NOT positive, because the toggle flips every cell
without consulting the count record. -/
theorem GTDB_C2_matrix_companion (jsonData : List GTDBRecord)
    (lines : List String) (s0 : VizState) (g1 g2 : String) (uc : Bool)
    (hkeys : ((tsvRows lines).map rowKey).Nodup)
    (hasm : (jsonData.map (fun r => r.assembly)).Nodup)
    (hl1 : diffLabel uc g1 g2 ∉ tsvGenes lines)
    (hl2 : diffLabel uc g2 g1 ∉ tsvGenes lines)
    (hnn : diffLabel uc g1 g2 ≠ diffLabel uc g2 g1) :
    MatCompanionInv (loadTSVData lines (loadGTDBData jsonData s0)) ∧
    MatCompanionInv (addDifferenceVisualization g1 g2 uc
      (loadTSVData lines (loadGTDBData jsonData s0))) ∧
    (∀ g gi a ai,
      (togglePresence (loadTSVData lines
        (loadGTDBData jsonData s0))).geneIndex g = some gi →
      (togglePresence (loadTSVData lines
        (loadGTDBData jsonData s0))).asmIndex a = some ai →
      (cellAt (togglePresence (loadTSVData lines
          (loadGTDBData jsonData s0))) gi ai = 1 ↔
        ¬ companionPos (togglePresence (loadTSVData lines
          (loadGTDBData jsonData s0))) a g)) := by
  have hinvL := load_invariant jsonData lines s0 hkeys
  have hboundL := load_bound jsonData lines s0
  have h01L := load_mat01 lines (loadGTDBData jsonData s0)
  refine ⟨hinvL, ?_, ?_⟩
  · apply diff_preserves
    · rfl
    · intro g gi hg
      have hg' : mapFromPairs ((tsvGenes lines).enum.map
          (fun p => (p.2, p.1))) g = some gi := hg
      have hgl := geneIndex_mem (tsvGenes lines) g gi hg'
      rcases List.getElem?_eq_some_iff.mp hgl with ⟨hb, _⟩
      exact hb
    · intro a i h
      have h' : (loadGTDBData jsonData s0).asmIndex a = some i := h
      exact (gtdb_asmIndex_mem jsonData s0 a i h').1
    · intro a b i h1 h2
      have h1' : (loadGTDBData jsonData s0).asmIndex a = some i := h1
      have h2' : (loadGTDBData jsonData s0).asmIndex b = some i := h2
      exact gtdb_asmIndex_inj jsonData s0 a b i h1' h2'
    · exact hasm
    · intro a cm h
      have h' : ((tsvRows lines).foldl
          (tsvRowStep (loadGTDBData jsonData s0).asmIndex
            (loadGTDBData jsonData s0).asmCount (tsvHeader lines)
            (tsvGenes lines)) ((fun _ => 0), mapEmpty)).2 a = some cm := h
      exact rowFold_cm_domain (loadGTDBData jsonData s0).asmIndex
        (loadGTDBData jsonData s0).asmCount (tsvHeader lines)
        (tsvGenes lines) (diffLabel uc g1 g2) hl1 (tsvRows lines)
        ((fun _ => 0), mapEmpty)
        (fun a' cm' h'' => absurd h'' (by simp [mapEmpty])) a cm h'
    · intro a cm h
      have h' : ((tsvRows lines).foldl
          (tsvRowStep (loadGTDBData jsonData s0).asmIndex
            (loadGTDBData jsonData s0).asmCount (tsvHeader lines)
            (tsvGenes lines)) ((fun _ => 0), mapEmpty)).2 a = some cm := h
      exact rowFold_cm_domain (loadGTDBData jsonData s0).asmIndex
        (loadGTDBData jsonData s0).asmCount (tsvHeader lines)
        (tsvGenes lines) (diffLabel uc g2 g1) hl2 (tsvRows lines)
        ((fun _ => 0), mapEmpty)
        (fun a' cm' h'' => absurd h'' (by simp [mapEmpty])) a cm h'
    · exact hnn
    · exact hinvL
  · exact toggle_inverts (loadTSVData lines (loadGTDBData jsonData s0)) _
      rfl hboundL h01L hinvL

/-- C2 witness: the two-assembly, two-gene demo load with a subsequent
difference synthesis and toggle, at concrete inputs. -/
theorem GTDB_C2_witness :
    MatCompanionInv (loadTSVData
      ["Assembly\tgA_count\tgB_count", "X\t2\t0", "Y\t0\t3"]
      (loadGTDBData [recX, recY] emptyState)) ∧
    MatCompanionInv (addDifferenceVisualization "gA_count" "gB_count" false
      (loadTSVData ["Assembly\tgA_count\tgB_count", "X\t2\t0", "Y\t0\t3"]
        (loadGTDBData [recX, recY] emptyState))) ∧
    (∀ g gi a ai,
      (togglePresence (loadTSVData
        ["Assembly\tgA_count\tgB_count", "X\t2\t0", "Y\t0\t3"]
        (loadGTDBData [recX, recY] emptyState))).geneIndex g = some gi →
      (togglePresence (loadTSVData
        ["Assembly\tgA_count\tgB_count", "X\t2\t0", "Y\t0\t3"]
        (loadGTDBData [recX, recY] emptyState))).asmIndex a = some ai →
      (cellAt (togglePresence (loadTSVData
          ["Assembly\tgA_count\tgB_count", "X\t2\t0", "Y\t0\t3"]
          (loadGTDBData [recX, recY] emptyState))) gi ai = 1 ↔
        ¬ companionPos (togglePresence (loadTSVData
          ["Assembly\tgA_count\tgB_count", "X\t2\t0", "Y\t0\t3"]
          (loadGTDBData [recX, recY] emptyState))) a g)) :=
  GTDB_C2_matrix_companion [recX, recY]
    ["Assembly\tgA_count\tgB_count", "X\t2\t0", "Y\t0\t3"] emptyState
    "gA_count" "gB_count" false (by decide) (by decide) (by decide)
    (by decide) (by decide)

end GTDBViz
